import Mathlib

/-!
Shallow embedding of the core of `nixos-advisory-survey` (Rust) for checking
its natural-language specification.

Embedded source files and symbols:
* `src/advisory.rs` — `Advisory` (year/id pair), `FromStr`, `Display`, `Ord`.
* `src/package.rs` — `Package` (name + version-split index), `FromStr`,
  `pname`, `version`.
* `src/scan.rs` — `Branch`, `VulnixRes`, `ScoreMap`, `ScanByBranch`.
* `src/ticket.rs` — `Detail`, `Ticket`, `cmp_score`, the sorting performed by
  `Ticket::fmt`, `ticket_list`, `Applicable::from_store_path`,
  `Applicable::extract_derivations`.

Modelling conventions:
* Rust strings (`SmolStr`, `SmallString`, `String`, `&str`) are `List Char`
  (`Str` below); Lean string literals are converted with `.data`.  The byte
  offsets used by the store-path extractor and by the revision slicing are
  modelled as character offsets; the inputs handled there (store paths, git
  revisions, branch names) are ASCII, where the two coincide.
* `f32` CVSS scores are modelled as `ℚ` (the inputs carry one-decimal CVSS
  values, on which `OrderedFloat<f32>` comparison agrees with the rational
  order; NaN payloads are not modelled).
* Rust `HashMap`s are modelled as association lists in insertion order; the
  places where the Rust iteration order is arbitrary are exactly the places
  the order-independence claim is about, and are quantified over explicitly.
* Fallible parsing (`FromStr`) returns `Option`.
-/

/-- Rust string contents as a list of characters. -/
abbrev Str := List Char

/-! ### Advisory (src/advisory.rs) -/

/-- `Advisory(u16, u64)`: a CVE identifier, year and numeric id.  The Rust
fields are `u16`/`u64`; parsing enforces the year to come from exactly four
decimal digits and the id to fit in a `u64`. -/
structure Advisory where
  year : Nat
  id : Nat
deriving DecidableEq, Repr

/-- `Advisory::as_tuple` -/
def Advisory.as_tuple (a : Advisory) : Nat × Nat := (a.year, a.id)

/-- `impl Ord for Advisory`: compares the `(year, id)` tuples. -/
def Advisory.cmp (a b : Advisory) : Ordering :=
  if a.year < b.year then .lt
  else if b.year < a.year then .gt
  else if a.id < b.id then .lt
  else if b.id < a.id then .gt
  else .eq

instance : LinearOrder Advisory :=
  LinearOrder.lift' (fun a => toLex (a.year, a.id)) (by
    intro a b h
    have h' : (a.year, a.id) = (b.year, b.id) := congrArg (⇑(ofLex)) h
    cases a; cases b
    simp only [Prod.mk.injEq] at h'
    simp [h'.1, h'.2])

/-- A decimal digit character `'0'..'9'` (what `str::parse::<uN>` accepts). -/
def isAsciiDigit (c : Char) : Bool := '0' ≤ c && c ≤ '9'

/-- Numeric value of a decimal digit character. -/
def digitVal (c : Char) : Nat := c.toNat - '0'.toNat

/-- Value of a most-significant-first decimal digit string, as computed by
`str::parse` (ignoring overflow, which is checked separately). -/
def decimalValue (l : Str) : Nat :=
  l.foldl (fun acc c => 10 * acc + digitVal c) 0

/-- Little-endian decimal digits with explicit fuel (kernel-reducible). -/
def digitsFuel : Nat → Nat → List Nat
  | 0, _ => []
  | _ + 1, 0 => []
  | fuel + 1, n + 1 => (n + 1) % 10 :: digitsFuel fuel ((n + 1) / 10)

/-- Little-endian decimal digits of `n` (agrees with `Nat.digits 10 n`). -/
def decimalDigits (n : Nat) : List Nat := digitsFuel n n

/-- Decimal digit characters of `n`, most significant first, as produced by
Rust's `{}` formatting of an unsigned integer. -/
def decimalChars (n : Nat) : Str :=
  if n = 0 then ['0']
  else (decimalDigits n).reverse.map (fun d => Char.ofNat ('0'.toNat + d))

/-- Rust `{:04}` formatting: left-pad with `'0'` to width 4 (wider values
print in full). -/
def pad4 (l : Str) : Str :=
  List.replicate (4 - l.length) '0' ++ l

/-- `impl Display for Advisory`: `write!(f, "CVE-{}-{:04}", self.0, self.1)`. -/
def Advisory.render (a : Advisory) : Str :=
  'C' :: 'V' :: 'E' :: '-' :: decimalChars a.year ++ '-' :: pad4 (decimalChars a.id)

/-- `impl FromStr for Advisory`: the input must match `^CVE-(\d{4})-(\d+)$`;
the year group (4 digits, so always < 2^16) parses as `u16`, the id group as
`u64` (failing on overflow). -/
def Advisory.parse (s : Str) : Option Advisory :=
  match s with
  | 'C' :: 'V' :: 'E' :: '-' :: y1 :: y2 :: y3 :: y4 :: '-' :: ds =>
    if isAsciiDigit y1 && isAsciiDigit y2 && isAsciiDigit y3 && isAsciiDigit y4
        && !ds.isEmpty && ds.all isAsciiDigit then
      let year := decimalValue [y1, y2, y3, y4]
      let id := decimalValue ds
      if year < 2 ^ 16 && id < 2 ^ 64 then some ⟨year, id⟩ else none
    else none
  | _ => none

/-- Lexicographic (byte-wise / code-point-wise) strict comparison of two
character strings, as Rust `str` `Ord` compares the rendered forms. -/
def lexLtChars : Str → Str → Bool
  | [], [] => false
  | [], _ :: _ => true
  | _ :: _, [] => false
  | a :: as_, b :: bs => if a < b then true else if b < a then false else lexLtChars as_ bs

/-! ### Package (src/package.rs) -/

/-- `Package { name: SmolStr, v_idx: usize }`.  `v_idx` points just past the
dash that starts the version. -/
structure Package where
  name : Str
  v_idx : Nat
deriving DecidableEq, Repr

/-- `Package::pname`: `&self.name[..self.v_idx - 1]`. -/
def Package.pname (p : Package) : Str := p.name.take (p.v_idx - 1)

/-- `Package::version`: `&self.name[self.v_idx..]`. -/
def Package.version (p : Package) : Str := p.name.drop p.v_idx

/-- Index of the first `-` that is immediately followed by a decimal digit
(`VERSION_SPLIT: Regex = "-[0-9]"`, leftmost match). -/
def versionSplit : Str → Option Nat
  | [] => none
  | [_] => none
  | c :: d :: rest =>
    if c = '-' && isAsciiDigit d then some 0
    else (versionSplit (d :: rest)).map (· + 1)

/-- `impl FromStr for Package`: succeed iff `VERSION_SPLIT` matches; `v_idx`
is the match start plus one. -/
def Package.parse (s : Str) : Option Package :=
  match versionSplit s with
  | some i => some ⟨s, i + 1⟩
  | none => none

/-- Derived `Ord` on `Package`: field order `name`, then `v_idx`. -/
instance : LinearOrder Package :=
  LinearOrder.lift' (fun p => toLex (p.name, p.v_idx)) (by
    intro a b h
    have h' : (a.name, a.v_idx) = (b.name, b.v_idx) := congrArg (⇑(ofLex)) h
    cases a; cases b
    simp only [Prod.mk.injEq] at h'
    simp [h'.1, h'.2])

/-! ### Branch (src/scan.rs) -/

/-- `Branch { name, rev }` with derived `Ord` (lexicographic on the field
pair). -/
structure Branch where
  name : Str
  rev : Str
deriving DecidableEq, Repr

/-- `Branch::new`: the revision defaults to the name. -/
def Branch.new (name : Str) : Branch := ⟨name, name⟩

instance : LinearOrder Branch :=
  LinearOrder.lift' (fun b => toLex (b.name, b.rev)) (by
    intro a b h
    have h' : (a.name, a.rev) = (b.name, b.rev) := congrArg (⇑(ofLex)) h
    cases a; cases b
    simp only [Prod.mk.injEq] at h'
    simp [h'.1, h'.2])

/-! ### Maintainer (src/package.rs) -/

/-- `Maintainer`: either a structured contact or an unstructured string.  The
derived `Ord` compares the variant first (`Structured < Unstructured`), then
fields in order with `None < Some`. -/
inductive Maintainer where
  | structured (github : Option Str) (email : Option Str)
  | unstructured (s : Str)
deriving DecidableEq, Repr

/-- `Option` ordering key (`None < Some`, `Some` by contents). -/
def optKey (o : Option Str) : WithBot Str :=
  match o with
  | none => ⊥
  | some s => (s : WithBot Str)

theorem optKey_injective : Function.Injective optKey := by
  intro a b h
  cases a <;> cases b <;> simp only [optKey] at h ⊢
  · exact absurd h (by exact fun hh => Option.noConfusion hh)
  · exact absurd h.symm (by exact fun hh => Option.noConfusion hh)
  · exact congrArg some (by injection h)

/-- Order key of a `Maintainer`, mirroring the derived `Ord`. -/
def Maintainer.key : Maintainer → Lex ((Lex ((WithBot Str) × (WithBot Str))) ⊕ Str)
  | .structured g e => toLex (Sum.inl (toLex (optKey g, optKey e)))
  | .unstructured s => toLex (Sum.inr s)

instance : LinearOrder Maintainer :=
  LinearOrder.lift' Maintainer.key (by
    intro a b h
    cases a <;> cases b <;> simp only [Maintainer.key] at h
    case structured.structured g1 e1 g2 e2 =>
      have h1 : (Sum.inl (toLex (optKey g1, optKey e1)) :
          (Lex ((WithBot Str) × (WithBot Str))) ⊕ Str) =
          Sum.inl (toLex (optKey g2, optKey e2)) := congrArg (⇑(ofLex)) h
      injection h1 with h2
      have h3 : (optKey g1, optKey e1) = (optKey g2, optKey e2) :=
        congrArg (⇑(ofLex)) h2
      have hg := congrArg Prod.fst h3
      have he := congrArg Prod.snd h3
      rw [optKey_injective hg, optKey_injective he]
    case structured.unstructured g1 e1 s2 =>
      exact Sum.noConfusion (congrArg (⇑(ofLex)) h)
    case unstructured.structured s1 g2 e2 =>
      exact Sum.noConfusion (congrArg (⇑(ofLex)) h)
    case unstructured.unstructured s1 s2 =>
      have h1 : (Sum.inr s1 : (Lex ((WithBot Str) × (WithBot Str))) ⊕ Str) =
          Sum.inr s2 := congrArg (⇑(ofLex)) h
      injection h1 with h2
      rw [h2])

/-! ### Scan results (src/scan.rs) -/

/-- `VulnixRes`: one scanner finding for one package on one branch.  The
`cvssv3_basescore` map is kept as an association list with pairwise-distinct
keys in the JSON source; only its key-value graph is ever used. -/
structure VulnixRes where
  pkg : Package
  pname : Str := []
  version : Str := []
  derivation : Str := []
  affected_by : List Advisory
  whitelisted : List Str := []
  cvssv3_basescore : List (Advisory × ℚ) := []
  maintainers : List Maintainer := []
deriving DecidableEq, Repr

/-! ### Detail and Ticket (src/ticket.rs) -/

/-- `Detail { branches: Vec<Branch>, score: Option<OrderedFloat<f32>> }`. -/
structure Detail where
  branches : List Branch := []
  score : Option ℚ := none
deriving DecidableEq, Repr

/-- `Detail::new`: empty branch list, given score. -/
def Detail.new (score : Option ℚ) : Detail := { branches := [], score }

/-- `Detail::add`: `self.branches.push(branch)`. -/
def Detail.add (d : Detail) (b : Branch) : Detail :=
  { d with branches := d.branches ++ [b] }

/-- `Ticket`.  The `affected` hash map is modelled as an association list in
insertion order (its keys are pairwise distinct by construction). -/
structure Ticket where
  iteration : Nat
  pkg : Package
  affected : List (Advisory × Detail) := []
  issue_id : Option Nat := none
  issue_url : Option Str := none
  maintainers : List Maintainer := []
deriving DecidableEq, Repr

/-! ### Association-list helpers (model of `HashMap` operations) -/

/-- `HashMap::get`. -/
def alistLookup {K V : Type} [DecidableEq K] (k : K) : List (K × V) → Option V
  | [] => none
  | kv :: rest => if kv.1 = k then some kv.2 else alistLookup k rest

/-- Replace the value of an existing key, keeping positions. -/
def alistUpdate {K V : Type} [DecidableEq K] (k : K) (f : V → V) :
    List (K × V) → List (K × V)
  | [] => []
  | kv :: rest =>
    if kv.1 = k then (kv.1, f kv.2) :: rest else kv :: alistUpdate k f rest

/-- `HashMap::entry(k).or_insert_with(init)` followed by an in-place update
`f` of the entry: update the existing binding, or append `(k, f init)`. -/
def alistEntry {K V : Type} [DecidableEq K] (k : K) (init : V) (f : V → V)
    (m : List (K × V)) : List (K × V) :=
  if (alistLookup k m).isSome then alistUpdate k f m else m ++ [(k, f init)]

/-- Rust `Vec::dedup` on a tail: drop elements equal to their predecessor. -/
def dedupAdjAux {α : Type} [DecidableEq α] (prev : α) : List α → List α
  | [] => []
  | b :: rest => if b = prev then dedupAdjAux prev rest else b :: dedupAdjAux b rest

/-- Rust `Vec::dedup`: remove consecutive duplicates, keeping the first. -/
def dedupAdj {α : Type} [DecidableEq α] : List α → List α
  | [] => []
  | a :: rest => a :: dedupAdjAux a rest

/-! ### ticket_list (src/ticket.rs) -/

/-- Ordering used by `advbr.sort_unstable()`: derived lexicographic `Ord` on
`(Advisory, Branch)` pairs. -/
def pairLe (x y : Advisory × Branch) : Prop :=
  x.1 < y.1 ∨ (x.1 = y.1 ∧ x.2 ≤ y.2)

instance : DecidableRel pairLe := fun x y => by
  unfold pairLe; infer_instance

/-- Ordering used by `tickets.sort_by(|a, b| a.pkg.cmp(&b.pkg))`. -/
def ticketLe (t u : Ticket) : Prop := t.pkg ≤ u.pkg

instance : DecidableRel ticketLe := fun t u => by
  unfold ticketLe; infer_instance

/-- The three accumulators of step 1 of `ticket_list`.  `scores` is only ever
queried pointwise, so it is modelled as a function (`HashMap::extend` with
last-write-wins). -/
structure Step1State where
  scores : Advisory → Option ℚ
  maintmap : List (Package × List Maintainer)
  pkgmap : List (Package × List (Advisory × Branch))

/-- `scores.extend(res.cvssv3_basescore)`: later writes win. -/
def scoresExtend (m : Advisory → Option ℚ) (kvs : List (Advisory × ℚ)) :
    Advisory → Option ℚ :=
  kvs.foldl (fun acc kv => fun a => if a = kv.1 then some kv.2 else acc a) m

/-- Body of the step-1 loop of `ticket_list` for one `(branch, result)`
pair. -/
def step1Body (ping_maintainers : Bool) (st : Step1State)
    (pair : Branch × VulnixRes) : Step1State :=
  let branch := pair.1
  let res := pair.2
  { scores := scoresExtend st.scores res.cvssv3_basescore
    maintmap :=
      if ping_maintainers then
        alistEntry res.pkg [] (· ++ res.maintainers) st.maintmap
      else st.maintmap
    pkgmap :=
      alistEntry res.pkg [] (· ++ res.affected_by.map (fun adv => (adv, branch)))
        st.pkgmap }

/-- Step 1 of `ticket_list`, folded over an explicit enumeration of the
`(branch, scan result)` pairs (the Rust code enumerates them in the arbitrary
iteration order of a `HashMap`). -/
def step1Fold (ping_maintainers : Bool) (l : List (Branch × VulnixRes)) : Step1State :=
  l.foldl (step1Body ping_maintainers) ⟨fun _ => none, [], []⟩

/-- The step-2 inner loop: `t.affected.entry(advisory)
.or_insert_with(|| Detail::new(score)).add(branch)` over the sorted pair
list. -/
def affectedFold (scores : Advisory → Option ℚ) (advbr : List (Advisory × Branch)) :
    List (Advisory × Detail) :=
  advbr.foldl
    (fun acc ab => alistEntry ab.1 (Detail.new (scores ab.1)) (fun d => d.add ab.2) acc)
    []

/-- Step 2 of `ticket_list` for one `pkgmap` entry: sort the `(advisory,
branch)` pairs, consolidate them into the `affected` map, and attach sorted,
deduplicated maintainers when present. -/
def buildTicket (iteration : Nat) (st : Step1State)
    (pv : Package × List (Advisory × Branch)) : Ticket :=
  let advbr := List.insertionSort pairLe pv.2
  let affected := affectedFold st.scores advbr
  let maintainers :=
    match alistLookup pv.1 st.maintmap with
    | some ms => dedupAdj (List.insertionSort (· ≤ ·) ms)
    | none => []
  { iteration, pkg := pv.1, affected, maintainers }

/-- `ticket_list`, steps 2–4, starting from the step-1 accumulators. -/
def step2 (iteration : Nat) (st : Step1State) : List Ticket :=
  List.insertionSort ticketLe (st.pkgmap.map (buildTicket iteration st))

/-- `ticket_list` on an explicit enumeration of the `(branch, scan result)`
pairs of its input map. -/
def consolidatePairs (iteration : Nat) (l : List (Branch × VulnixRes))
    (ping_maintainers : Bool) : List Ticket :=
  step2 iteration (step1Fold ping_maintainers l)

/-- The enumeration of `(branch, result)` pairs performed by the two nested
loops of step 1 of `ticket_list`. -/
def flattenScan (scan_res : List (Branch × List VulnixRes)) :
    List (Branch × VulnixRes) :=
  scan_res.flatMap (fun br => br.2.map (fun res => (br.1, res)))

/-- `ticket_list(iteration, scan_res, ping_maintainers)`: the scan results by
branch are enumerated as `(branch, result)` pairs and consolidated into one
ticket per package, sorted by package. -/
def ticket_list (iteration : Nat) (scan_res : List (Branch × List VulnixRes))
    (ping_maintainers : Bool) : List Ticket :=
  consolidatePairs iteration (flattenScan scan_res) ping_maintainers

/-! ### Rendering order and footer (src/ticket.rs, `Ticket::fmt`) -/

/-- `cmp_score`: scores compare descending with `unwrap_or(OrderedFloat(-1.0))`
for missing scores; ties fall back to ascending advisory order
(`partial_cmp.unwrap_or(Equal)`, always `Some` for advisories). -/
def cmp_score (a b : Advisory × Detail) : Ordering :=
  let left := a.2.score.getD (-1 : ℚ)
  let right := b.2.score.getD (-1 : ℚ)
  if left < right then .gt
  else if right < left then .lt
  else Advisory.cmp a.1 b.1

/-- The "not greater" relation under which `adv.sort_unstable_by(cmp_score)`
sorts.  (The Rust sort is unstable, but `cmp_score` is a total order whenever
the advisory keys are pairwise distinct, which holds for every map-backed
`affected` list, so the sorted list is unique.) -/
def scoreSortLe (a b : Advisory × Detail) : Prop := cmp_score a b ≠ .gt

instance : DecidableRel scoreSortLe := fun a b => by
  unfold scoreSortLe; infer_instance

/-- The order in which `Ticket::fmt` emits the advisory lines:
`self.affected` sorted by `cmp_score`. -/
def Ticket.sortedAffected (t : Ticket) : List (Advisory × Detail) :=
  List.insertionSort scoreSortLe t.affected

/-- The branch-name list a `Detail` renders inside parentheses
(`self.branches.iter().map(|b| b.name.as_str())`, joined with `", "`). -/
def Detail.names (d : Detail) : List Str := d.branches.map (·.name)

/-- `&b.rev.as_str()[..11]`: the first 11 characters of the revision, or a
panic (modelled as `none`) when the revision is shorter.  (Rust slices bytes
and would also panic on a non-boundary index; revisions are ASCII.) -/
def revSlice11 (s : Str) : Option Str :=
  if 11 ≤ s.length then some (s.take 11) else none

/-- The "Scanned versions" footer of `Ticket::fmt`: one `name: rev[..11]`
entry per branch referenced by any advisory, sorted and deduplicated;
`none` models the panic on a too-short revision. -/
def Ticket.scannedVersions (t : Ticket) : Option (List Str) :=
  let branchlist := t.affected.flatMap (fun ad => ad.2.branches)
  (branchlist.mapM fun b =>
      (revSlice11 b.rev).map (fun r => b.name ++ ": ".data ++ r)).map
    (fun l => dedupAdj (List.insertionSort (· ≤ ·) l))

/-- All branches referenced by some advisory of the ticket (the list whose
revisions the footer slices). -/
def Ticket.referencedBranches (t : Ticket) : List Branch :=
  t.affected.flatMap (fun ad => ad.2.branches)

/-! ### Store-path extraction (src/ticket.rs, `Applicable`) -/

/-- `str::trim` (ASCII whitespace; the Unicode-only whitespace code points do
not occur in store listings). -/
def trimAscii (s : Str) : Str :=
  ((s.dropWhile Char.isWhitespace).reverse.dropWhile Char.isWhitespace).reverse

/-- `Applicable::from_store_path`: trim the line, then try the three shapes
in priority order — absolute store path (`-` at offset 43, keep from 44),
bare hash-name pair (`-` at offset 32, keep from 33), else the whole trimmed
line; empty lines yield `None`. -/
def from_store_path (sp : Str) : Option Str :=
  let sp := trimAscii sp
  if sp.length = 0 then none
  else if 44 < sp.length ∧ sp.get? 43 = some '-' then some (sp.drop 44)
  else if 33 < sp.length ∧ sp.get? 32 = some '-' then some (sp.drop 33)
  else some sp

/-- `STRIP_OUTPUTS`: known output suffixes stripped in allow-list mode. -/
def STRIP_OUTPUTS : List Str :=
  ["-dev".data, "-bin".data, "-out".data, "-lib".data, "-ga".data]

/-- The suffix loop of `Applicable::extract_derivations`: strip the first
matching known suffix, if any. -/
def stripOutput : List Str → Str → Str
  | [], d => d
  | suf :: rest, d =>
    if suf.isSuffixOf d then d.take (d.length - suf.length) else stripOutput rest d

/-- `Applicable::extract_derivations`, applied to the lines of a store dump:
extract the derivation name of every line and strip known output suffixes. -/
def extract_derivations (storedump : List Str) : List Str :=
  storedump.filterMap (fun line => (from_store_path line).map (stripOutput STRIP_OUTPUTS))

/-! ### Association-list lemmas -/

section AListLemmas

variable {K V : Type} [DecidableEq K]

theorem alistLookup_update_self (k : K) (f : V → V) (m : List (K × V)) :
    alistLookup k (alistUpdate k f m) = (alistLookup k m).map f := by
  induction m with
  | nil => rfl
  | cons kv rest ih =>
    by_cases h : kv.1 = k
    · simp [alistUpdate, alistLookup, h]
    · simp [alistUpdate, alistLookup, h, ih]

theorem alistLookup_update_other {k k' : K} (h : k' ≠ k) (f : V → V)
    (m : List (K × V)) :
    alistLookup k' (alistUpdate k f m) = alistLookup k' m := by
  induction m with
  | nil => rfl
  | cons kv rest ih =>
    by_cases hk : kv.1 = k
    · have hne : ¬ kv.1 = k' := fun hh => h (hh.symm.trans hk)
      simp [alistUpdate, if_pos hk, alistLookup, if_neg hne]
    · simp only [alistUpdate, if_neg hk]
      by_cases hk' : kv.1 = k'
      · simp [alistLookup, hk']
      · simp [alistLookup, hk', ih]

theorem alistUpdate_keys (k : K) (f : V → V) (m : List (K × V)) :
    (alistUpdate k f m).map Prod.fst = m.map Prod.fst := by
  induction m with
  | nil => rfl
  | cons kv rest ih =>
    by_cases h : kv.1 = k
    · simp [alistUpdate, h]
    · simp [alistUpdate, h, ih]

theorem alistLookup_append (k : K) (m₁ m₂ : List (K × V)) :
    alistLookup k (m₁ ++ m₂) =
      match alistLookup k m₁ with
      | some v => some v
      | none => alistLookup k m₂ := by
  induction m₁ with
  | nil => rfl
  | cons kv rest ih =>
    by_cases h : kv.1 = k
    · simp [alistLookup, h]
    · simp [alistLookup, h, ih]

theorem alistLookup_isNone_iff (k : K) (m : List (K × V)) :
    alistLookup k m = none ↔ k ∉ m.map Prod.fst := by
  induction m with
  | nil => simp [alistLookup]
  | cons kv rest ih =>
    by_cases h : kv.1 = k
    · simp [alistLookup, h]
    · simp only [alistLookup, if_neg h, List.map_cons, List.mem_cons, ih]
      constructor
      · intro hn hmem
        rcases hmem with h1 | h2
        · exact h h1.symm
        · exact hn h2
      · intro hn hm
        exact hn (Or.inr hm)

theorem alistEntry_lookup_self (k : K) (init : V) (f : V → V) (m : List (K × V)) :
    alistLookup k (alistEntry k init f m) =
      some (f ((alistLookup k m).getD init)) := by
  unfold alistEntry
  by_cases h : (alistLookup k m).isSome
  · rw [if_pos h, alistLookup_update_self]
    obtain ⟨v, hv⟩ := Option.isSome_iff_exists.mp h
    simp [hv]
  · rw [if_neg h, alistLookup_append]
    have hn : alistLookup k m = none := Option.not_isSome_iff_eq_none.mp h
    simp [hn, alistLookup]

theorem alistEntry_lookup_other {k k' : K} (h : k' ≠ k) (init : V) (f : V → V)
    (m : List (K × V)) :
    alistLookup k' (alistEntry k init f m) = alistLookup k' m := by
  unfold alistEntry
  by_cases hs : (alistLookup k m).isSome
  · rw [if_pos hs, alistLookup_update_other h]
  · rw [if_neg hs, alistLookup_append]
    have hne : ¬ k = k' := fun hh => h hh.symm
    cases hlk : alistLookup k' m with
    | none => simp [alistLookup, if_neg hne]
    | some v => simp

theorem alistEntry_keys (k : K) (init : V) (f : V → V) (m : List (K × V)) :
    (alistEntry k init f m).map Prod.fst =
      if k ∈ m.map Prod.fst then m.map Prod.fst else m.map Prod.fst ++ [k] := by
  unfold alistEntry
  by_cases h : (alistLookup k m).isSome
  · have hk : k ∈ m.map Prod.fst := by
      by_contra hk
      rw [← alistLookup_isNone_iff (V := V) k m] at hk
      simp [hk] at h
    rw [if_pos h, if_pos hk, alistUpdate_keys]
  · have hk : k ∉ m.map Prod.fst := by
      rw [← alistLookup_isNone_iff (V := V) k m]
      exact Option.not_isSome_iff_eq_none.mp h
    rw [if_neg h, if_neg hk]
    simp

theorem alistEntry_keys_nodup (k : K) (init : V) (f : V → V) (m : List (K × V))
    (h : (m.map Prod.fst).Nodup) : ((alistEntry k init f m).map Prod.fst).Nodup := by
  rw [alistEntry_keys]
  by_cases hk : k ∈ m.map Prod.fst
  · rwa [if_pos hk]
  · rw [if_neg hk]
    simpa using List.Nodup.append h (List.nodup_singleton k) (by simpa using hk)

theorem alistEntry_keys_mem (k q : K) (init : V) (f : V → V) (m : List (K × V)) :
    q ∈ (alistEntry k init f m).map Prod.fst ↔ q ∈ m.map Prod.fst ∨ q = k := by
  rw [alistEntry_keys]
  by_cases hk : k ∈ m.map Prod.fst
  · rw [if_pos hk]
    constructor
    · exact Or.inl
    · rintro (h | h)
      · exact h
      · exact h ▸ hk
  · rw [if_neg hk]
    simp

theorem alistLookup_of_mem {m : List (K × V)} (hnd : (m.map Prod.fst).Nodup)
    {kv : K × V} (hmem : kv ∈ m) : alistLookup kv.1 m = some kv.2 := by
  induction m with
  | nil => cases hmem
  | cons hd rest ih =>
    simp only [List.map_cons, List.nodup_cons] at hnd
    rcases List.mem_cons.mp hmem with h | h
    · subst h
      simp [alistLookup]
    · have hne : hd.1 ≠ kv.1 := by
        intro he
        exact hnd.1 (he ▸ List.mem_map_of_mem Prod.fst h)
      simp only [alistLookup, if_neg hne]
      exact ih hnd.2 h

end AListLemmas

/-! ### Input-side specification views of `ticket_list`'s consolidation -/

/-- Packages mentioned by the enumerated scan results, in order. -/
def resPkgs (l : List (Branch × VulnixRes)) : List Package := l.map (·.2.pkg)

/-- All `(advisory, branch)` pairs the input reports for package `p`, in
enumeration order. -/
def pairsFor (l : List (Branch × VulnixRes)) (p : Package) : List (Advisory × Branch) :=
  l.flatMap (fun br =>
    if br.2.pkg = p then br.2.affected_by.map (fun adv => (adv, br.1)) else [])

/-- All maintainers the input reports for package `p`, in enumeration order. -/
def maintFor (l : List (Branch × VulnixRes)) (p : Package) : List Maintainer :=
  l.flatMap (fun br => if br.2.pkg = p then br.2.maintainers else [])

/-- All `(advisory, score)` bindings contributed to the global score map. -/
def scoreBindings (l : List (Branch × VulnixRes)) : List (Advisory × ℚ) :=
  l.flatMap (fun br => br.2.cvssv3_basescore)

/-- Every advisory is assigned a single consistent score across all scan
results. -/
def scoresConsistent (l : List (Branch × VulnixRes)) : Prop :=
  ∀ kv ∈ scoreBindings l, ∀ kv' ∈ scoreBindings l, kv.1 = kv'.1 → kv.2 = kv'.2

instance : DecidablePred scoresConsistent := fun l => by
  unfold scoresConsistent; infer_instance

/-! ### Characterization of step 1 -/

theorem step1_pkgmap_lookup (ping : Bool) (l : List (Branch × VulnixRes))
    (st : Step1State) (p : Package) :
    alistLookup p (List.foldl (step1Body ping) st l).pkgmap =
      match alistLookup p st.pkgmap with
      | some v => some (v ++ pairsFor l p)
      | none => if p ∈ resPkgs l then some (pairsFor l p) else none := by
  induction l generalizing st with
  | nil =>
    simp only [List.foldl_nil, pairsFor, List.flatMap_nil, resPkgs, List.map_nil]
    cases alistLookup p st.pkgmap <;> simp
  | cons br rest ih =>
    rw [List.foldl_cons, ih]
    have hpk : (step1Body ping st br).pkgmap =
        alistEntry br.2.pkg []
          (· ++ br.2.affected_by.map (fun adv => (adv, br.1))) st.pkgmap := rfl
    have hpairs : pairsFor (br :: rest) p =
        (if br.2.pkg = p then br.2.affected_by.map (fun adv => (adv, br.1)) else [])
          ++ pairsFor rest p := by
      simp [pairsFor]
    by_cases hp : br.2.pkg = p
    · rw [hpk, hp, alistEntry_lookup_self]
      rw [hpairs, if_pos hp]
      cases hacc : alistLookup p st.pkgmap with
      | some v => simp [hacc, List.append_assoc]
      | none =>
        have hmem : p ∈ resPkgs (br :: rest) := by
          simp [resPkgs, hp.symm]
        simp [hacc, hmem]
    · rw [hpk, alistEntry_lookup_other (fun hh => hp hh.symm)]
      rw [hpairs, if_neg hp]
      have hmem : p ∈ resPkgs (br :: rest) ↔ p ∈ resPkgs rest := by
        simp only [resPkgs, List.map_cons, List.mem_cons]
        constructor
        · rintro (h | h)
          · exact absurd h.symm hp
          · exact h
        · exact Or.inr
      cases alistLookup p st.pkgmap with
      | some v => simp
      | none => simp [hmem]

theorem step1_pkgmap_keys_nodup (ping : Bool) (l : List (Branch × VulnixRes))
    (st : Step1State) (h : (st.pkgmap.map Prod.fst).Nodup) :
    ((List.foldl (step1Body ping) st l).pkgmap.map Prod.fst).Nodup := by
  induction l generalizing st with
  | nil => exact h
  | cons br rest ih =>
    rw [List.foldl_cons]
    apply ih
    have hpk : (step1Body ping st br).pkgmap =
        alistEntry br.2.pkg []
          (· ++ br.2.affected_by.map (fun adv => (adv, br.1))) st.pkgmap := rfl
    rw [hpk]
    exact alistEntry_keys_nodup _ _ _ _ h

theorem step1_pkgmap_keys_mem (ping : Bool) (l : List (Branch × VulnixRes))
    (st : Step1State) (q : Package) :
    q ∈ (List.foldl (step1Body ping) st l).pkgmap.map Prod.fst ↔
      q ∈ st.pkgmap.map Prod.fst ∨ q ∈ resPkgs l := by
  induction l generalizing st with
  | nil => simp [resPkgs]
  | cons br rest ih =>
    rw [List.foldl_cons, ih]
    have hpk : (step1Body ping st br).pkgmap =
        alistEntry br.2.pkg []
          (· ++ br.2.affected_by.map (fun adv => (adv, br.1))) st.pkgmap := rfl
    rw [hpk, alistEntry_keys_mem]
    simp only [resPkgs, List.map_cons, List.mem_cons]
    constructor
    · rintro ((h | h) | h)
      · exact Or.inl h
      · exact Or.inr (Or.inl h)
      · exact Or.inr (Or.inr h)
    · rintro (h | h | h)
      · exact Or.inl (Or.inl h)
      · exact Or.inl (Or.inr h)
      · exact Or.inr h

theorem step1_maintmap_lookup_true (l : List (Branch × VulnixRes))
    (st : Step1State) (p : Package) :
    alistLookup p (List.foldl (step1Body true) st l).maintmap =
      match alistLookup p st.maintmap with
      | some v => some (v ++ maintFor l p)
      | none => if p ∈ resPkgs l then some (maintFor l p) else none := by
  induction l generalizing st with
  | nil =>
    simp only [List.foldl_nil, maintFor, List.flatMap_nil, resPkgs, List.map_nil]
    cases alistLookup p st.maintmap <;> simp
  | cons br rest ih =>
    rw [List.foldl_cons, ih]
    have hpk : (step1Body true st br).maintmap =
        alistEntry br.2.pkg [] (· ++ br.2.maintainers) st.maintmap := rfl
    have hpairs : maintFor (br :: rest) p =
        (if br.2.pkg = p then br.2.maintainers else []) ++ maintFor rest p := by
      simp [maintFor]
    by_cases hp : br.2.pkg = p
    · rw [hpk, hp, alistEntry_lookup_self]
      rw [hpairs, if_pos hp]
      cases hacc : alistLookup p st.maintmap with
      | some v => simp [hacc, List.append_assoc]
      | none =>
        have hmem : p ∈ resPkgs (br :: rest) := by
          simp [resPkgs, hp.symm]
        simp [hacc, hmem]
    · rw [hpk, alistEntry_lookup_other (fun hh => hp hh.symm)]
      rw [hpairs, if_neg hp]
      have hmem : p ∈ resPkgs (br :: rest) ↔ p ∈ resPkgs rest := by
        simp only [resPkgs, List.map_cons, List.mem_cons]
        constructor
        · rintro (h | h)
          · exact absurd h.symm hp
          · exact h
        · exact Or.inr
      cases alistLookup p st.maintmap with
      | some v => simp
      | none => simp [hmem]

theorem step1_maintmap_false (l : List (Branch × VulnixRes)) (st : Step1State) :
    (List.foldl (step1Body false) st l).maintmap = st.maintmap := by
  induction l generalizing st with
  | nil => rfl
  | cons br rest ih => rw [List.foldl_cons]; exact ih _

theorem scoresExtend_append (m : Advisory → Option ℚ) (a b : List (Advisory × ℚ)) :
    scoresExtend m (a ++ b) = scoresExtend (scoresExtend m a) b := by
  unfold scoresExtend
  rw [List.foldl_append]

theorem step1_scores (ping : Bool) (l : List (Branch × VulnixRes)) (st : Step1State) :
    (List.foldl (step1Body ping) st l).scores = scoresExtend st.scores (scoreBindings l) := by
  induction l generalizing st with
  | nil =>
    simp only [List.foldl_nil, scoreBindings, List.flatMap_nil]
    rfl
  | cons br rest ih =>
    rw [List.foldl_cons, ih]
    have hsc : (step1Body ping st br).scores =
        scoresExtend st.scores br.2.cvssv3_basescore := rfl
    rw [hsc]
    have hb : scoreBindings (br :: rest) =
        br.2.cvssv3_basescore ++ scoreBindings rest := by
      simp [scoreBindings]
    rw [hb, scoresExtend_append]

theorem scoresExtend_not_mem (m : Advisory → Option ℚ) (kvs : List (Advisory × ℚ))
    (a : Advisory) (h : ∀ kv ∈ kvs, kv.1 ≠ a) : scoresExtend m kvs a = m a := by
  induction kvs generalizing m with
  | nil => rfl
  | cons kv rest ih =>
    have hstep : scoresExtend m (kv :: rest) =
        scoresExtend (fun a' => if a' = kv.1 then some kv.2 else m a') rest := rfl
    rw [hstep, ih _ (fun kv' hkv' => h kv' (List.mem_cons_of_mem _ hkv'))]
    have hne : a ≠ kv.1 := fun hh => h kv (List.mem_cons_self _ _) hh.symm
    simp [hne]

theorem scoresExtend_mem_consistent (m : Advisory → Option ℚ)
    (kvs : List (Advisory × ℚ)) (a : Advisory) (q : ℚ)
    (hcons : ∀ kv ∈ kvs, ∀ kv' ∈ kvs, kv.1 = kv'.1 → kv.2 = kv'.2)
    (hmem : (a, q) ∈ kvs) : scoresExtend m kvs a = some q := by
  induction kvs generalizing m with
  | nil => cases hmem
  | cons kv rest ih =>
    have hstep : scoresExtend m (kv :: rest) =
        scoresExtend (fun a' => if a' = kv.1 then some kv.2 else m a') rest := rfl
    rw [hstep]
    by_cases hrest : ∃ q', (a, q') ∈ rest
    · obtain ⟨q', hq'⟩ := hrest
      have hq : q' = q :=
        hcons (a, q') (List.mem_cons_of_mem _ hq') (a, q) hmem rfl
      subst hq
      exact ih _ (fun x hx y hy => hcons x (List.mem_cons_of_mem _ hx)
        y (List.mem_cons_of_mem _ hy)) hq'
    · push_neg at hrest
      have hnone : ∀ kv' ∈ rest, kv'.1 ≠ a := by
        intro kv' hkv' he
        exact hrest kv'.2 (by
          have : kv' = (a, kv'.2) := by
            cases kv'
            simp only at he
            rw [he]
          exact this ▸ hkv')
      rw [scoresExtend_not_mem _ _ _ hnone]
      have hkv : kv = (a, q) := by
        rcases List.mem_cons.mp hmem with h | h
        · exact h.symm
        · exact absurd h (by
            intro hh
            exact hrest q hh)
      rw [hkv]
      simp

/-! ### Characterization of the `affected` fold (step 2 inner loop) -/

theorem affectedFold_go (scores : Advisory → Option ℚ)
    (advbr : List (Advisory × Branch)) (acc : List (Advisory × Detail)) (a : Advisory) :
    alistLookup a
      (advbr.foldl
        (fun acc ab => alistEntry ab.1 (Detail.new (scores ab.1)) (fun d => d.add ab.2) acc)
        acc) =
      match alistLookup a acc with
      | some d =>
          some ⟨d.branches ++ (advbr.filter (fun ab => ab.1 = a)).map Prod.snd, d.score⟩
      | none =>
          if advbr.filter (fun ab => ab.1 = a) = [] then none
          else some ⟨(advbr.filter (fun ab => ab.1 = a)).map Prod.snd, scores a⟩ := by
  induction advbr generalizing acc with
  | nil =>
    cases hacc : alistLookup a acc with
    | some d => simp [hacc]
    | none => simp [hacc]
  | cons ab rest ih =>
    rw [List.foldl_cons, ih]
    by_cases ha : ab.1 = a
    · have hfil : (ab :: rest).filter (fun x => x.1 = a) =
          ab :: rest.filter (fun x => x.1 = a) := by
        simp [List.filter_cons, ha]
      rw [hfil]
      rw [show (alistEntry ab.1 (Detail.new (scores ab.1)) (fun d => d.add ab.2) acc) =
        (alistEntry a (Detail.new (scores a)) (fun d => d.add ab.2) acc) from ha ▸ rfl]
      rw [alistEntry_lookup_self]
      cases hacc : alistLookup a acc with
      | some d =>
        simp only [hacc, Option.getD_some, Detail.add]
        simp [List.append_assoc]
      | none =>
        simp only [hacc, Option.getD_none, Detail.add, Detail.new]
        simp
    · have hfil : (ab :: rest).filter (fun x => x.1 = a) =
          rest.filter (fun x => x.1 = a) := by
        simp [List.filter_cons, ha]
      rw [hfil]
      rw [alistEntry_lookup_other (fun hh => ha hh.symm)]

theorem affectedFold_lookup (scores : Advisory → Option ℚ)
    (advbr : List (Advisory × Branch)) (a : Advisory) :
    alistLookup a (affectedFold scores advbr) =
      if advbr.filter (fun ab => ab.1 = a) = [] then none
      else some ⟨(advbr.filter (fun ab => ab.1 = a)).map Prod.snd, scores a⟩ := by
  unfold affectedFold
  rw [affectedFold_go]
  rfl

theorem affectedFold_keys_go (scores : Advisory → Option ℚ)
    (advbr : List (Advisory × Branch)) (acc : List (Advisory × Detail)) :
    (((advbr.foldl
        (fun acc ab => alistEntry ab.1 (Detail.new (scores ab.1)) (fun d => d.add ab.2) acc)
        acc).map Prod.fst).Nodup ↔ ((acc.map Prod.fst).Nodup)) ∧
    (∀ a, a ∈ (advbr.foldl
        (fun acc ab => alistEntry ab.1 (Detail.new (scores ab.1)) (fun d => d.add ab.2) acc)
        acc).map Prod.fst ↔ a ∈ acc.map Prod.fst ∨ a ∈ advbr.map Prod.fst) := by
  induction advbr generalizing acc with
  | nil => simp
  | cons ab rest ih =>
    rw [List.foldl_cons]
    refine ⟨?_, ?_⟩
    · rw [(ih _).1]
      constructor
      · intro h
        by_cases hm : ab.1 ∈ acc.map Prod.fst
        · rwa [alistEntry_keys, if_pos hm] at h
        · rw [alistEntry_keys, if_neg hm] at h
          exact (List.nodup_append.mp h).1
      · intro h
        exact alistEntry_keys_nodup _ _ _ _ h
    · intro a
      rw [(ih _).2, alistEntry_keys_mem]
      simp only [List.map_cons, List.mem_cons]
      constructor
      · rintro ((h | h) | h)
        · exact Or.inl h
        · exact Or.inr (Or.inl h)
        · exact Or.inr (Or.inr h)
      · rintro (h | h | h)
        · exact Or.inl (Or.inl h)
        · exact Or.inl (Or.inr h)
        · exact Or.inr h

theorem affectedFold_keys_nodup (scores : Advisory → Option ℚ)
    (advbr : List (Advisory × Branch)) :
    ((affectedFold scores advbr).map Prod.fst).Nodup := by
  unfold affectedFold
  exact (affectedFold_keys_go scores advbr []).1.mpr (by simp)

theorem affectedFold_keys_mem (scores : Advisory → Option ℚ)
    (advbr : List (Advisory × Branch)) (a : Advisory) :
    a ∈ (affectedFold scores advbr).map Prod.fst ↔ a ∈ advbr.map Prod.fst := by
  unfold affectedFold
  rw [(affectedFold_keys_go scores advbr []).2 a]
  simp

/-! ### Order facts for the sort relations -/

instance : IsTotal (Advisory × Branch) pairLe :=
  ⟨by
    intro x y
    rcases lt_trichotomy x.1 y.1 with h | h | h
    · exact Or.inl (Or.inl h)
    · rcases le_total x.2 y.2 with h2 | h2
      · exact Or.inl (Or.inr ⟨h, h2⟩)
      · exact Or.inr (Or.inr ⟨h.symm, h2⟩)
    · exact Or.inr (Or.inl h)⟩

instance : IsTrans (Advisory × Branch) pairLe :=
  ⟨by
    rintro x y z (h1 | ⟨h1e, h1le⟩) (h2 | ⟨h2e, h2le⟩)
    · exact Or.inl (h1.trans h2)
    · exact Or.inl (h2e ▸ h1)
    · exact Or.inl (h1e ▸ h2)
    · exact Or.inr ⟨h1e.trans h2e, h1le.trans h2le⟩⟩

instance : IsAntisymm (Advisory × Branch) pairLe :=
  ⟨by
    rintro x y (h1 | ⟨h1e, h1le⟩) (h2 | ⟨h2e, h2le⟩)
    · exact absurd h2 (lt_asymm h1)
    · exact absurd h1 (h2e ▸ lt_irrefl _)
    · exact absurd h2 (h1e ▸ lt_irrefl _)
    · exact Prod.ext h1e (le_antisymm h1le h2le)⟩

instance : IsTotal Ticket ticketLe :=
  ⟨fun t u => le_total t.pkg u.pkg⟩

instance : IsTrans Ticket ticketLe :=
  ⟨fun _ _ _ h1 h2 => le_trans h1 h2⟩

/-- Strict version of `ticketLe`, used to show that the sorted ticket list is
uniquely determined when all packages are distinct. -/
def ticketLt (t u : Ticket) : Prop := t.pkg < u.pkg

instance : IsAntisymm Ticket ticketLt :=
  ⟨fun _ _ h1 h2 => absurd h2 (lt_asymm h1)⟩

/-! ### Membership shape of the consolidated ticket list -/

theorem alistLookup_mem {K V : Type} [DecidableEq K] {k : K} {v : V}
    {m : List (K × V)} (h : alistLookup k m = some v) : (k, v) ∈ m := by
  induction m with
  | nil => cases h
  | cons kv rest ih =>
    by_cases hk : kv.1 = k
    · simp only [alistLookup, if_pos hk] at h
      obtain rfl := Option.some_injective _ h
      have he : (k, kv.2) = kv := by rw [← hk]
      rw [he]
      exact List.mem_cons_self _ _
    · simp only [alistLookup, if_neg hk] at h
      exact List.mem_cons_of_mem _ (ih h)

theorem consolidate_pkgmap_lookup (ping : Bool) (l : List (Branch × VulnixRes))
    (p : Package) :
    alistLookup p (step1Fold ping l).pkgmap =
      if p ∈ resPkgs l then some (pairsFor l p) else none := by
  unfold step1Fold
  rw [step1_pkgmap_lookup]
  rfl

theorem consolidate_pkgmap_nodup (ping : Bool) (l : List (Branch × VulnixRes)) :
    (((step1Fold ping l).pkgmap.map Prod.fst)).Nodup := by
  unfold step1Fold
  exact step1_pkgmap_keys_nodup _ _ _ (by simp)

theorem consolidate_mem (it : Nat) (ping : Bool) (l : List (Branch × VulnixRes))
    (t : Ticket) :
    t ∈ consolidatePairs it l ping ↔
      t.pkg ∈ resPkgs l ∧
        t = buildTicket it (step1Fold ping l) (t.pkg, pairsFor l t.pkg) := by
  unfold consolidatePairs step2
  rw [List.mem_insertionSort, List.mem_map]
  constructor
  · rintro ⟨pv, hpv, rfl⟩
    have hpkg : (buildTicket it (step1Fold ping l) pv).pkg = pv.1 := rfl
    have hkey : pv.1 ∈ (step1Fold ping l).pkgmap.map Prod.fst :=
      List.mem_map_of_mem Prod.fst hpv
    have hkey' : pv.1 ∈ resPkgs l := by
      unfold step1Fold at hkey
      rcases (step1_pkgmap_keys_mem _ _ _ _).mp hkey with h | h
      · simp at h
      · exact h
    have hlk : alistLookup pv.1 (step1Fold ping l).pkgmap = some pv.2 :=
      alistLookup_of_mem (consolidate_pkgmap_nodup ping l) hpv
    rw [consolidate_pkgmap_lookup, if_pos hkey'] at hlk
    have hv : pv.2 = pairsFor l pv.1 := (Option.some_injective _ hlk).symm
    refine ⟨hpkg ▸ hkey', ?_⟩
    rw [hpkg]
    congr 1
    exact Prod.ext rfl hv
  · rintro ⟨hp, ht⟩
    refine ⟨(t.pkg, pairsFor l t.pkg), ?_, ht.symm⟩
    apply alistLookup_mem (k := t.pkg) (v := pairsFor l t.pkg)
    rw [consolidate_pkgmap_lookup, if_pos hp]

theorem alist_filter_key_length {K V : Type} [DecidableEq K]
    (m : List (K × V)) (p : K) :
    (m.filter (fun pv => pv.1 = p)).length = (m.map Prod.fst).count p := by
  induction m with
  | nil => simp
  | cons kv rest ih =>
    by_cases h : kv.1 = p
    · simp [List.filter_cons, h, ih, List.count_cons]
    · simp [List.filter_cons, h, ih, List.count_cons]

theorem consolidate_filter_length (it : Nat) (ping : Bool)
    (l : List (Branch × VulnixRes)) (p : Package) (hp : p ∈ resPkgs l) :
    ((consolidatePairs it l ping).filter (fun t => t.pkg = p)).length = 1 := by
  unfold consolidatePairs step2
  have hperm : List.Perm
      ((List.insertionSort ticketLe
        ((step1Fold ping l).pkgmap.map (buildTicket it (step1Fold ping l)))).filter
          (fun t => t.pkg = p))
      (((step1Fold ping l).pkgmap.map (buildTicket it (step1Fold ping l))).filter
          (fun t => t.pkg = p)) :=
    (List.perm_insertionSort ticketLe _).filter _
  rw [hperm.length_eq]
  have hmapfil : (((step1Fold ping l).pkgmap.map
        (buildTicket it (step1Fold ping l))).filter (fun t => t.pkg = p)) =
      (((step1Fold ping l).pkgmap.filter (fun pv => pv.1 = p)).map
        (buildTicket it (step1Fold ping l))) := by
    rw [List.filter_map]
    rfl
  rw [hmapfil, List.length_map, alist_filter_key_length]
  have hk : p ∈ (step1Fold ping l).pkgmap.map Prod.fst := by
    unfold step1Fold
    rw [step1_pkgmap_keys_mem]
    exact Or.inr hp
  exact List.count_eq_one_of_mem (consolidate_pkgmap_nodup ping l) hk

/-- The `(advisory, branch)` pairs reported for package `p` that carry
advisory `a`. -/
def pairsAt (l : List (Branch × VulnixRes)) (p : Package) (a : Advisory) :
    List (Advisory × Branch) :=
  (pairsFor l p).filter (fun ab => ab.1 = a)

theorem pairsFor_ne_nil_mem_resPkgs {l : List (Branch × VulnixRes)} {p : Package}
    (h : pairsFor l p ≠ []) : p ∈ resPkgs l := by
  obtain ⟨x, hx⟩ := List.exists_mem_of_ne_nil _ h
  rw [pairsFor, List.mem_flatMap] at hx
  obtain ⟨br, hbr, hxin⟩ := hx
  by_cases hp : br.2.pkg = p
  · exact hp ▸ List.mem_map_of_mem (·.2.pkg) hbr
  · rw [if_neg hp] at hxin
    cases hxin

theorem buildTicket_affected (it : Nat) (st : Step1State)
    (pv : Package × List (Advisory × Branch)) :
    (buildTicket it st pv).affected =
      affectedFold st.scores (List.insertionSort pairLe pv.2) := rfl

theorem sorted_filter_perm (advbr : List (Advisory × Branch)) (a : Advisory) :
    List.Perm ((List.insertionSort pairLe advbr).filter (fun ab => ab.1 = a))
      (advbr.filter (fun ab => ab.1 = a)) :=
  (List.perm_insertionSort pairLe advbr).filter _

theorem step1Fold_scores (ping : Bool) (l : List (Branch × VulnixRes)) :
    (step1Fold ping l).scores = scoresExtend (fun _ => none) (scoreBindings l) := by
  unfold step1Fold
  rw [step1_scores]

theorem step1Fold_scores_of_mem {l : List (Branch × VulnixRes)} {a : Advisory} {q : ℚ}
    (ping : Bool) (hcons : scoresConsistent l) (hmem : (a, q) ∈ scoreBindings l) :
    (step1Fold ping l).scores a = some q := by
  rw [step1Fold_scores]
  exact scoresExtend_mem_consistent _ _ _ _ hcons hmem

theorem step1Fold_scores_of_not_mem {l : List (Branch × VulnixRes)} {a : Advisory}
    (ping : Bool) (h : ∀ q, (a, q) ∉ scoreBindings l) :
    (step1Fold ping l).scores a = none := by
  rw [step1Fold_scores]
  exact scoresExtend_not_mem _ _ _ (by
    intro kv hkv he
    exact h kv.2 (by
      have : kv = (a, kv.2) := by
        cases kv
        simp only at he
        rw [he]
      exact this ▸ hkv))

/-- Consolidation helper: a package reported with a shared advisory yields
exactly one ticket whose affected map has each reported advisory exactly once
as a key; the shared advisory's `Detail` carries the union of the reporting
branches and the (consistent) advisory score. -/
theorem consolidate_one_ticket_union (it : Nat) (ping : Bool)
    (l : List (Branch × VulnixRes)) (p : Package) (a : Advisory)
    (hcons : scoresConsistent l) (hrep : pairsAt l p a ≠ []) :
    ((consolidatePairs it l ping).filter (fun t => t.pkg = p)).length = 1 ∧
    ∃ t ∈ consolidatePairs it l ping, t.pkg = p ∧
      (t.affected.map Prod.fst).Nodup ∧
      (∀ a', (alistLookup a' t.affected).isSome ↔ pairsAt l p a' ≠ []) ∧
      ∃ d, alistLookup a t.affected = some d ∧
        (∀ b, b ∈ d.branches ↔ (a, b) ∈ pairsFor l p) ∧
        (∀ q, (a, q) ∈ scoreBindings l → d.score = some q) ∧
        (d.score = none ↔ ∀ q, (a, q) ∉ scoreBindings l) := by
  have hpf : pairsFor l p ≠ [] := by
    intro hnil
    rw [pairsAt, hnil] at hrep
    exact hrep rfl
  have hp : p ∈ resPkgs l := pairsFor_ne_nil_mem_resPkgs hpf
  refine ⟨consolidate_filter_length it ping l p hp, ?_⟩
  set st := step1Fold ping l with hst
  set t := buildTicket it st (p, pairsFor l p) with htdef
  have htpkg : t.pkg = p := rfl
  have htmem : t ∈ consolidatePairs it l ping := by
    rw [consolidate_mem]
    exact ⟨htpkg ▸ hp, by rw [htpkg]⟩
  have haff : t.affected = affectedFold st.scores (List.insertionSort pairLe (pairsFor l p)) := rfl
  have hnodup : (t.affected.map Prod.fst).Nodup := by
    rw [haff]
    exact affectedFold_keys_nodup _ _
  have hfilter_iff : ∀ a' : Advisory,
      ((List.insertionSort pairLe (pairsFor l p)).filter (fun ab => ab.1 = a') = []
        ↔ pairsAt l p a' = []) := by
    intro a'
    have hperm := sorted_filter_perm (pairsFor l p) a'
    constructor
    · intro h
      have := hperm.length_eq
      rw [h] at this
      exact List.length_eq_zero.mp ((this.symm))
    · intro h
      have := hperm.length_eq
      rw [pairsAt] at h
      rw [h] at this
      exact List.length_eq_zero.mp this
  refine ⟨t, htmem, htpkg, hnodup, ?_, ?_⟩
  · intro a'
    rw [haff, affectedFold_lookup]
    by_cases he : (List.insertionSort pairLe (pairsFor l p)).filter (fun ab => ab.1 = a') = []
    · rw [if_pos he]
      simp [((hfilter_iff a').mp he)]
    · rw [if_neg he]
      simp only [Option.isSome_some, true_iff]
      intro hc
      exact he ((hfilter_iff a').mpr hc)
  · have hne : ¬ ((List.insertionSort pairLe (pairsFor l p)).filter (fun ab => ab.1 = a) = []) :=
      fun hc => hrep ((hfilter_iff a).mp hc)
    refine ⟨⟨((List.insertionSort pairLe (pairsFor l p)).filter
        (fun ab => ab.1 = a)).map Prod.snd, st.scores a⟩, ?_, ?_, ?_, ?_⟩
    · rw [haff, affectedFold_lookup, if_neg hne]
    · intro b
      simp only [List.mem_map]
      constructor
      · rintro ⟨x, hx, rfl⟩
        have hx' := (sorted_filter_perm (pairsFor l p) a).mem_iff.mp hx
        have hx1 : x.1 = a := of_decide_eq_true (List.mem_filter.mp hx').2
        have hxm : x ∈ pairsFor l p := (List.mem_filter.mp hx').1
        have : x = (a, x.2) := by
          cases x
          simp only at hx1
          rw [hx1]
        exact this ▸ hxm
      · intro hab
        refine ⟨(a, b), ?_, rfl⟩
        rw [(sorted_filter_perm (pairsFor l p) a).mem_iff]
        exact List.mem_filter.mpr ⟨hab, by simp⟩
    · intro q hq
      exact step1Fold_scores_of_mem ping hcons hq
    · constructor
      · intro hnone q hq
        rw [step1Fold_scores_of_mem ping hcons hq] at hnone
        cases hnone
      · intro h
        exact step1Fold_scores_of_not_mem ping h

/-! ### Example data used by concrete witnesses -/

def exBr1 : Branch := Branch.new "br1".data
def exBr2 : Branch := Branch.new "br2".data
def exLibtiff : Package := ⟨"libtiff-4.0.9".data, 8⟩
def exAdv17100 : Advisory := ⟨2018, 17100⟩
def exAdv17101 : Advisory := ⟨2018, 17101⟩

/-- The spec's consolidation example: `br1` and `br2` both report
`libtiff-4.0.9` with `CVE-2018-17101` at score 8.7. -/
def exScan : List (Branch × List VulnixRes) :=
  [(exBr1, [{ pkg := exLibtiff,
              affected_by := [exAdv17100, exAdv17101],
              cvssv3_basescore :=
                [(exAdv17100, mkRat 88 10), (exAdv17101, mkRat 87 10)] }]),
   (exBr2, [{ pkg := exLibtiff,
              affected_by := [exAdv17101],
              cvssv3_basescore := [(exAdv17101, mkRat 87 10)] }])]

/-- **C1**: when several branches report the same package with overlapping
advisories (and scores are consistent across scan results), `ticket_list`
returns exactly one ticket for that package; its affected map contains each
reported advisory exactly once as a key, and the `Detail` of the shared
advisory carries the union of the reporting branches together with the
advisory's score. -/
theorem C1_ticket_list_one_ticket_union (it : Nat) (ping : Bool)
    (sbb : List (Branch × List VulnixRes)) (p : Package) (a : Advisory)
    (hcons : scoresConsistent (flattenScan sbb))
    (hrep : pairsAt (flattenScan sbb) p a ≠ []) :
    ((ticket_list it sbb ping).filter (fun t => t.pkg = p)).length = 1 ∧
    ∃ t ∈ ticket_list it sbb ping, t.pkg = p ∧
      (t.affected.map Prod.fst).Nodup ∧
      (∀ a', (alistLookup a' t.affected).isSome ↔ pairsAt (flattenScan sbb) p a' ≠ []) ∧
      ∃ d, alistLookup a t.affected = some d ∧
        (∀ b, b ∈ d.branches ↔ (a, b) ∈ pairsFor (flattenScan sbb) p) ∧
        (∀ q, (a, q) ∈ scoreBindings (flattenScan sbb) → d.score = some q) ∧
        (d.score = none ↔ ∀ q, (a, q) ∉ scoreBindings (flattenScan sbb)) :=
  consolidate_one_ticket_union it ping (flattenScan sbb) p a hcons hrep

/-- Witness for C1 at the spec's example: both hypotheses hold for the
two-branch libtiff scan, and the conclusion follows by the theorem. -/
theorem C1_ticket_list_one_ticket_union_witness :
    scoresConsistent (flattenScan exScan) ∧
    pairsAt (flattenScan exScan) exLibtiff exAdv17101 ≠ [] ∧
    (((ticket_list 2 exScan false).filter (fun t => t.pkg = exLibtiff)).length = 1 ∧
    ∃ t ∈ ticket_list 2 exScan false, t.pkg = exLibtiff ∧
      (t.affected.map Prod.fst).Nodup ∧
      (∀ a', (alistLookup a' t.affected).isSome ↔
        pairsAt (flattenScan exScan) exLibtiff a' ≠ []) ∧
      ∃ d, alistLookup exAdv17101 t.affected = some d ∧
        (∀ b, b ∈ d.branches ↔ (exAdv17101, b) ∈ pairsFor (flattenScan exScan) exLibtiff) ∧
        (∀ q, (exAdv17101, q) ∈ scoreBindings (flattenScan exScan) → d.score = some q) ∧
        (d.score = none ↔ ∀ q, (exAdv17101, q) ∉ scoreBindings (flattenScan exScan))) :=
  ⟨by decide, by decide,
    C1_ticket_list_one_ticket_union 2 false exScan exLibtiff exAdv17101
      (by decide) (by decide)⟩

/-! ### C2: zero-advisory packages -/

/-- Counterexample to **C2** as stated: a package reported by a single scan
result with an empty `affected_by` list still yields a ticket (step 1 creates
the `pkgmap` entry before extending it with the advisory pairs), and that
ticket's affected map is empty. -/
theorem C2_counterexample :
    ticket_list 1 [(exBr1, [{ pkg := exLibtiff, affected_by := [] }])] false =
      [{ iteration := 1, pkg := exLibtiff, affected := [] }] ∧
    ∃ t ∈ ticket_list 1 [(exBr1, [{ pkg := exLibtiff, affected_by := [] }])] false,
      t.pkg = exLibtiff ∧ t.affected = [] := by
  decide

/-- **C2** (amended): every package appearing in any scan result yields
exactly one ticket — even one whose every scan result has an empty
`affected_by` list — and that ticket's affected map is empty exactly when no
`(advisory, branch)` pair was reported for the package.  (A ticket with zero
advisories therefore can occur, contrary to the original claim.) -/
theorem C2_zero_advisory_package_ticket (it : Nat) (ping : Bool)
    (sbb : List (Branch × List VulnixRes)) (p : Package)
    (hp : p ∈ resPkgs (flattenScan sbb)) :
    ((ticket_list it sbb ping).filter (fun t => t.pkg = p)).length = 1 ∧
    (∀ t ∈ ticket_list it sbb ping, t.pkg ∈ resPkgs (flattenScan sbb)) ∧
    ∃ t ∈ ticket_list it sbb ping, t.pkg = p ∧
      (t.affected = [] ↔ pairsFor (flattenScan sbb) p = []) := by
  set l := flattenScan sbb with hl
  refine ⟨consolidate_filter_length it ping l p hp, ?_, ?_⟩
  · intro t ht
    exact ((consolidate_mem it ping l t).mp ht).1
  · set st := step1Fold ping l with hst
    set t := buildTicket it st (p, pairsFor l p) with htdef
    have htpkg : t.pkg = p := rfl
    have htmem : t ∈ consolidatePairs it l ping := by
      rw [consolidate_mem]
      exact ⟨htpkg ▸ hp, by rw [htpkg]⟩
    refine ⟨t, htmem, htpkg, ?_, ?_⟩
    · intro hempty
      by_contra hne
      obtain ⟨x, hx⟩ := List.exists_mem_of_ne_nil _ hne
      have hx' : x ∈ List.insertionSort pairLe (pairsFor l p) :=
        (List.mem_insertionSort pairLe).mpr hx
      have hk : x.1 ∈ t.affected.map Prod.fst := by
        rw [buildTicket_affected, affectedFold_keys_mem]
        exact List.mem_map_of_mem Prod.fst hx'
      rw [hempty] at hk
      cases hk
    · intro hnil
      have : List.insertionSort pairLe (pairsFor l p) = [] := by
        rw [hnil]
        rfl
      rw [buildTicket_affected]
      rw [this]
      rfl

/-- Witness for the amended C2: the zero-advisory libtiff input yields exactly
one ticket for the package, with an empty affected map. -/
theorem C2_zero_advisory_package_ticket_witness :
    exLibtiff ∈ resPkgs
      (flattenScan [(exBr1, [{ pkg := exLibtiff, affected_by := [] }])]) ∧
    (((ticket_list 1 [(exBr1, [{ pkg := exLibtiff, affected_by := [] }])] false).filter
        (fun t => t.pkg = exLibtiff)).length = 1 ∧
    (∀ t ∈ ticket_list 1 [(exBr1, [{ pkg := exLibtiff, affected_by := [] }])] false,
      t.pkg ∈ resPkgs (flattenScan [(exBr1, [{ pkg := exLibtiff, affected_by := [] }])])) ∧
    ∃ t ∈ ticket_list 1 [(exBr1, [{ pkg := exLibtiff, affected_by := [] }])] false,
      t.pkg = exLibtiff ∧
      (t.affected = [] ↔
        pairsFor (flattenScan [(exBr1, [{ pkg := exLibtiff, affected_by := [] }])])
          exLibtiff = [])) :=
  ⟨by decide,
    C2_zero_advisory_package_ticket 1 false
      [(exBr1, [{ pkg := exLibtiff, affected_by := [] }])] exLibtiff (by decide)⟩

/-! ### C4: rendered branch lists -/

theorem pairwise_imp_mem {α : Type} {R S : α → α → Prop} {l : List α}
    (h : ∀ x ∈ l, ∀ y ∈ l, R x y → S x y) (hp : List.Pairwise R l) :
    List.Pairwise S l := by
  induction hp with
  | nil => exact List.Pairwise.nil
  | cons hhead _ ih =>
    rename_i a rest hrest
    refine List.Pairwise.cons ?_ (ih ?_)
    · intro y hy
      exact h a (List.mem_cons_self _ _) y (List.mem_cons_of_mem _ hy) (hhead y hy)
    · intro x hx y hy
      exact h x (List.mem_cons_of_mem _ hx) y (List.mem_cons_of_mem _ hy)

/-- Branch order is lexicographic on `(name, rev)`, so it is monotone in the
name. -/
theorem Branch.le_name {b b' : Branch} (h : b ≤ b') : b.name ≤ b'.name := by
  have h' : toLex (b.name, b.rev) ≤ toLex (b'.name, b'.rev) := h
  rcases (Prod.Lex.le_iff _ _).mp h' with h1 | ⟨h1, _⟩
  · exact le_of_lt h1
  · exact le_of_eq h1

/-- Counterexample to **C4** as stated: when a scan result's `affected_by`
list contains the same advisory twice, the branch is folded into the `Detail`
twice and the rendered branch-name list contains a duplicate (nothing
deduplicates `Detail::branches` before display). -/
theorem C4_counterexample :
    ∃ t ∈ ticket_list 1
        [(exBr1, [{ pkg := exLibtiff, affected_by := [exAdv17100, exAdv17100] }])] false,
      ∃ d, alistLookup exAdv17100 t.affected = some d ∧
        d.names = ["br1".data, "br1".data] ∧ ¬ d.names.Nodup := by
  decide

/-- **C4** (amended): in every ticket produced by `ticket_list`, the
branch-name list a `Detail` renders is sorted (nondecreasing); it is free of
duplicates provided no `(advisory, branch)` occurrence for that advisory is
reported twice and distinct reporting branches have distinct names — a
duplicated fold, by contrast, leaves a duplicated name. -/
theorem C4_branch_names_sorted_dedup (it : Nat) (ping : Bool)
    (sbb : List (Branch × List VulnixRes)) (t : Ticket) (a : Advisory) (d : Detail)
    (ht : t ∈ ticket_list it sbb ping)
    (hd : alistLookup a t.affected = some d) :
    d.names.Pairwise (· ≤ ·) ∧
    ((pairsAt (flattenScan sbb) t.pkg a).Nodup →
      (∀ b₁ ∈ d.branches, ∀ b₂ ∈ d.branches, b₁.name = b₂.name → b₁ = b₂) →
      d.names.Nodup) := by
  set l := flattenScan sbb with hl
  obtain ⟨-, ht'⟩ := (consolidate_mem it ping l t).mp ht
  set sf := (List.insertionSort pairLe (pairsFor l t.pkg)).filter
    (fun ab => ab.1 = a) with hsf
  have haff : t.affected =
      affectedFold (step1Fold ping l).scores
        (List.insertionSort pairLe (pairsFor l t.pkg)) := by
    rw [ht']
    rfl
  have hlk := hd
  rw [haff, affectedFold_lookup] at hlk
  by_cases he : sf = []
  · rw [if_pos he] at hlk
    cases hlk
  · rw [if_neg he] at hlk
    have hdval : d = ⟨sf.map Prod.snd, (step1Fold ping l).scores a⟩ :=
      (Option.some_injective _ hlk).symm
    have hsorted : List.Pairwise pairLe sf :=
      (List.sorted_insertionSort pairLe (pairsFor l t.pkg)).filter _
    have hfst : ∀ x ∈ sf, x.1 = a := by
      intro x hx
      exact of_decide_eq_true (List.mem_filter.mp hx).2
    have hsnd : List.Pairwise (fun x y : Advisory × Branch => x.2 ≤ y.2) sf := by
      refine pairwise_imp_mem ?_ hsorted
      intro x hx y hy hxy
      rcases hxy with h1 | ⟨_, h2⟩
      · rw [hfst x hx, hfst y hy] at h1
        exact absurd h1 (lt_irrefl a)
      · exact h2
    constructor
    · have : d.names = sf.map (fun x => x.2.name) := by
        rw [hdval, Detail.names]
        simp [List.map_map]
      rw [this, List.pairwise_map]
      refine pairwise_imp_mem ?_ hsnd
      intro x _ y _ hxy
      exact Branch.le_name hxy
    · intro hnd hinj
      have hperm := sorted_filter_perm (pairsFor l t.pkg) a
      have hsfnd : sf.Nodup := (hperm.nodup_iff).mpr hnd
      have hbr : d.branches = sf.map Prod.snd := by rw [hdval]
      have hbrnd : d.branches.Nodup := by
        rw [hbr]
        refine List.Nodup.map_on ?_ hsfnd
        intro x hx y hy hxy
        have hx1 := hfst x hx
        have hy1 := hfst y hy
        cases x; cases y
        simp only at hx1 hy1 hxy
        rw [hx1, hy1, hxy]
      have : d.names = d.branches.map (fun b => b.name) := rfl
      rw [this]
      exact List.Nodup.map_on (fun b₁ h₁ b₂ h₂ he => hinj b₁ h₁ b₂ h₂ he) hbrnd

/-- The consolidated ticket of the two-branch libtiff example. -/
def exTicket : Ticket :=
  { iteration := 2, pkg := exLibtiff,
    affected :=
      [(exAdv17100, { branches := [exBr1], score := some (mkRat 88 10) }),
       (exAdv17101, { branches := [exBr1, exBr2], score := some (mkRat 87 10) })] }

/-- The detail of the shared advisory in the example ticket. -/
def exDetail : Detail := { branches := [exBr1, exBr2], score := some (mkRat 87 10) }

/-- Witness for the amended C4 at the two-branch libtiff example. -/
theorem C4_branch_names_sorted_dedup_witness :
    exTicket ∈ ticket_list 2 exScan false ∧
    alistLookup exAdv17101 exTicket.affected = some exDetail ∧
    (pairsAt (flattenScan exScan) exTicket.pkg exAdv17101).Nodup ∧
    exDetail.names.Pairwise (· ≤ ·) ∧ exDetail.names.Nodup := by
  have h := C4_branch_names_sorted_dedup 2 false exScan exTicket exAdv17101 exDetail
    (by decide) (by decide)
  exact ⟨by decide, by decide, by decide, h.1, h.2 (by decide) (by decide)⟩

/-! ### C3: advisory rendering order -/

theorem advisory_le_iff (a b : Advisory) :
    a ≤ b ↔ a.year < b.year ∨ (a.year = b.year ∧ a.id ≤ b.id) :=
  Prod.Lex.le_iff (a.year, a.id) (b.year, b.id)

theorem advisory_lt_iff (a b : Advisory) :
    a < b ↔ a.year < b.year ∨ (a.year = b.year ∧ a.id < b.id) := by
  rw [← not_le, advisory_le_iff]
  omega

theorem Advisory.cmp_eq_gt_iff (a b : Advisory) : Advisory.cmp a b = .gt ↔ b < a := by
  rw [advisory_lt_iff]
  unfold Advisory.cmp
  split_ifs <;> simp <;> omega

theorem Advisory.cmp_eq_lt_iff (a b : Advisory) : Advisory.cmp a b = .lt ↔ a < b := by
  rw [advisory_lt_iff]
  unfold Advisory.cmp
  split_ifs <;> simp <;> omega

theorem Advisory.cmp_eq_eq_iff (a b : Advisory) : Advisory.cmp a b = .eq ↔ a = b := by
  cases a with
  | mk ay ai =>
    cases b with
    | mk by' bi =>
      unfold Advisory.cmp
      split_ifs <;> simp_all [Advisory.mk.injEq] <;> omega

/-- `cmp_score`'s "not Greater" relation, characterized: score descending with
`-1` substituted for a missing score, ties broken by ascending advisory. -/
theorem scoreSortLe_iff (x y : Advisory × Detail) :
    scoreSortLe x y ↔
      y.2.score.getD (-1 : ℚ) < x.2.score.getD (-1 : ℚ) ∨
      (x.2.score.getD (-1 : ℚ) = y.2.score.getD (-1 : ℚ) ∧ x.1 ≤ y.1) := by
  unfold scoreSortLe cmp_score
  by_cases h1 : x.2.score.getD (-1 : ℚ) < y.2.score.getD (-1 : ℚ)
  · rw [if_pos h1]
    simp only [ne_eq, not_true_eq_false, false_iff]
    rintro (h | ⟨h, _⟩)
    · exact absurd h (lt_asymm h1)
    · exact absurd h (ne_of_lt h1)
  · by_cases h2 : y.2.score.getD (-1 : ℚ) < x.2.score.getD (-1 : ℚ)
    · rw [if_neg h1, if_pos h2]
      simp only [ne_eq]
      constructor
      · intro _
        exact Or.inl h2
      · intro _ hc
        cases hc
    · have heq : x.2.score.getD (-1 : ℚ) = y.2.score.getD (-1 : ℚ) :=
        le_antisymm (not_lt.mp h2) (not_lt.mp h1)
      rw [if_neg h1, if_neg h2]
      constructor
      · intro h
        refine Or.inr ⟨heq, ?_⟩
        by_contra hlt
        exact h ((Advisory.cmp_eq_gt_iff _ _).mpr (not_le.mp hlt))
      · rintro (h | ⟨_, hle⟩)
        · exact absurd h h2
        · intro hc
          exact absurd hle (not_le.mpr ((Advisory.cmp_eq_gt_iff _ _).mp hc))

instance : IsTotal (Advisory × Detail) scoreSortLe :=
  ⟨by
    intro x y
    rw [scoreSortLe_iff, scoreSortLe_iff]
    rcases lt_trichotomy (x.2.score.getD (-1 : ℚ)) (y.2.score.getD (-1 : ℚ)) with h | h | h
    · exact Or.inr (Or.inl h)
    · rcases le_total x.1 y.1 with h2 | h2
      · exact Or.inl (Or.inr ⟨h, h2⟩)
      · exact Or.inr (Or.inr ⟨h.symm, h2⟩)
    · exact Or.inl (Or.inl h)⟩

instance : IsTrans (Advisory × Detail) scoreSortLe :=
  ⟨by
    intro x y z hxy hyz
    rw [scoreSortLe_iff] at hxy hyz ⊢
    rcases hxy with h1 | ⟨h1, h1'⟩ <;> rcases hyz with h2 | ⟨h2, h2'⟩
    · exact Or.inl (h2.trans h1)
    · exact Or.inl (h2 ▸ h1)
    · exact Or.inl (h1 ▸ h2)
    · exact Or.inr ⟨h1.trans h2, h1'.trans h2'⟩⟩

/-- The spec's rendering order: score strictly descending, an unscored
advisory never before a scored one, ties broken by ascending advisory. -/
def specAdvOrder (x y : Advisory × Detail) : Prop :=
  match x.2.score, y.2.score with
  | some sx, some sy => sy < sx ∨ (sx = sy ∧ x.1 < y.1)
  | some _, none => True
  | none, some _ => False
  | none, none => x.1 < y.1

/-- Counterexample to **C3** as stated: a score of `-1.0` collides with the
sentinel `cmp_score` substitutes for missing scores, so an unscored advisory
with a smaller identifier renders *before* a scored one. -/
theorem C3_counterexample :
    ∃ t ∈ ticket_list 1
      [(exBr1, [{ pkg := exLibtiff,
                  affected_by := [⟨2019, 1⟩, ⟨2018, 1⟩],
                  cvssv3_basescore := [(⟨2019, 1⟩, mkRat (-1) 1)] }])] false,
      t.sortedAffected.map (fun x => (x.1, x.2.score)) =
        [(⟨2018, 1⟩, none), (⟨2019, 1⟩, some (mkRat (-1) 1))] := by
  decide

/-- **C3** (amended): the rendered body lists the advisories of a ticket (a
permutation of its affected map) sorted by score descending with a missing
score treated as `-1.0`; hence, whenever every present score exceeds `-1`
(true of all real CVSS scores), every unscored advisory sorts after all
scored ones and ties break by ascending `(year, id)` advisory order. -/
theorem C3_advisory_order (t : Ticket)
    (hkeys : (t.affected.map Prod.fst).Nodup)
    (hpos : ∀ x ∈ t.affected, ∀ q ∈ x.2.score, (-1 : ℚ) < q) :
    List.Perm t.sortedAffected t.affected ∧
    List.Pairwise specAdvOrder t.sortedAffected := by
  have hperm : List.Perm t.sortedAffected t.affected :=
    List.perm_insertionSort scoreSortLe t.affected
  refine ⟨hperm, ?_⟩
  have hsorted : List.Pairwise scoreSortLe t.sortedAffected :=
    List.sorted_insertionSort scoreSortLe t.affected
  have hkeys' : (t.sortedAffected.map Prod.fst).Nodup :=
    ((hperm.map Prod.fst).nodup_iff).mpr hkeys
  have hne : List.Pairwise (fun x y : Advisory × Detail => x.1 ≠ y.1) t.sortedAffected :=
    (List.pairwise_map).mp hkeys'
  have hpos' : ∀ x ∈ t.sortedAffected, ∀ q ∈ x.2.score, (-1 : ℚ) < q := by
    intro x hx
    exact hpos x (hperm.mem_iff.mp hx)
  refine pairwise_imp_mem ?_ (hsorted.and hne)
  rintro x hx y hy ⟨hle, hxyne⟩
  rw [scoreSortLe_iff] at hle
  cases hxs : x.2.score with
  | none =>
    cases hys : y.2.score with
    | none =>
      simp only [specAdvOrder, hxs, hys]
      rw [hxs, hys] at hle
      rcases hle with h | ⟨_, h2⟩
      · exact absurd h (lt_irrefl _)
      · exact lt_of_le_of_ne h2 hxyne
    | some sy =>
      have hsy : (-1 : ℚ) < sy := hpos' y hy sy (by rw [hys]; exact rfl)
      rw [hxs, hys] at hle
      simp only [Option.getD_some, Option.getD_none] at hle
      rcases hle with h | ⟨h, _⟩
      · exact absurd (h.trans hsy) (lt_irrefl _)
      · exact absurd (h ▸ hsy) (lt_irrefl _)
  | some sx =>
    cases hys : y.2.score with
    | none => simp [specAdvOrder, hxs, hys]
    | some sy =>
      simp only [specAdvOrder, hxs, hys]
      rw [hxs, hys] at hle
      simp only [Option.getD_some] at hle
      rcases hle with h | ⟨h, h2⟩
      · exact Or.inl h
      · exact Or.inr ⟨h, lt_of_le_of_ne h2 hxyne⟩

/-- The spec's rendering-order example: scores `{A: 8.8, B: 8.7, C: none}`. -/
def exC3Ticket : Ticket :=
  { iteration := 1, pkg := exLibtiff,
    affected :=
      [(⟨2018, 5⟩, { branches := [exBr1], score := none }),
       (⟨2019, 2⟩, { branches := [exBr1], score := some (mkRat 87 10) }),
       (⟨2019, 1⟩, { branches := [exBr1], score := some (mkRat 88 10) })] }

/-- Witness for the amended C3: the example ticket satisfies both hypotheses,
the theorem applies, and the rendered order is A (8.8), B (8.7), C (none). -/
theorem C3_advisory_order_witness :
    (exC3Ticket.affected.map Prod.fst).Nodup ∧
    (∀ x ∈ exC3Ticket.affected, ∀ q ∈ x.2.score, (-1 : ℚ) < q) ∧
    (List.Perm exC3Ticket.sortedAffected exC3Ticket.affected ∧
      List.Pairwise specAdvOrder exC3Ticket.sortedAffected) ∧
    exC3Ticket.sortedAffected.map (fun x => (x.1, x.2.score)) =
      [(⟨2019, 1⟩, some (mkRat 88 10)), (⟨2019, 2⟩, some (mkRat 87 10)),
       (⟨2018, 5⟩, none)] :=
  ⟨by decide, by decide,
    C3_advisory_order exC3Ticket (by decide) (by decide), by decide⟩

/-! ### C5: advisory comparison is numeric -/

theorem advisory_as_tuple_inj (a b : Advisory) :
    a.as_tuple = b.as_tuple ↔ a = b := by
  cases a
  cases b
  simp [Advisory.as_tuple, Advisory.mk.injEq, Prod.mk.injEq]

/-- **C5**: `Advisory` comparison is exactly the lexicographic comparison of
the `(year, id)` tuples — never a string comparison; in particular
`CVE-2019-9999 < CVE-2019-10000` although the rendered (un-padded) strings
compare the opposite way. -/
theorem C5_advisory_cmp_is_tuple_lex :
    (∀ a b : Advisory,
      (Advisory.cmp a b = .lt ↔ toLex a.as_tuple < toLex b.as_tuple) ∧
      (Advisory.cmp a b = .eq ↔ a.as_tuple = b.as_tuple) ∧
      (Advisory.cmp a b = .gt ↔ toLex b.as_tuple < toLex a.as_tuple)) ∧
    Advisory.cmp ⟨2019, 9999⟩ ⟨2019, 10000⟩ = .lt ∧
    lexLtChars (Advisory.render ⟨2019, 10000⟩) (Advisory.render ⟨2019, 9999⟩) = true ∧
    lexLtChars (Advisory.render ⟨2019, 9999⟩) (Advisory.render ⟨2019, 10000⟩) = false := by
  refine ⟨?_, by decide, by decide, by decide⟩
  intro a b
  refine ⟨?_, ?_, ?_⟩
  · rw [Advisory.cmp_eq_lt_iff, advisory_lt_iff, Prod.Lex.lt_iff]
    exact Iff.rfl
  · rw [Advisory.cmp_eq_eq_iff]
    exact (advisory_as_tuple_inj a b).symm
  · rw [Advisory.cmp_eq_gt_iff, advisory_lt_iff, Prod.Lex.lt_iff]
    exact Iff.rfl

/-! ### C7: package name/version splitting -/

/-- Position `i` of `s` holds a `-` immediately followed by a decimal digit
(a match position of `VERSION_SPLIT`). -/
def splitPoint (s : Str) (i : Nat) : Prop :=
  s.get? i = some '-' ∧ ∃ d, s.get? (i + 1) = some d ∧ isAsciiDigit d = true

theorem versionSplit_some {s : Str} {i : Nat} (h : versionSplit s = some i) :
    splitPoint s i ∧ ∀ j < i, ¬ splitPoint s j := by
  induction s generalizing i with
  | nil => cases h
  | cons c tail ih =>
    cases tail with
    | nil => cases h
    | cons d rest =>
      by_cases hc : (c = '-' && isAsciiDigit d) = true
      · rw [versionSplit, if_pos hc] at h
        obtain rfl := Option.some_injective _ h
        simp only [Bool.and_eq_true, decide_eq_true_eq] at hc
        refine ⟨⟨by simp [hc.1], d, by simp, hc.2⟩, ?_⟩
        intro j hj
        cases hj
      · rw [versionSplit, if_neg hc] at h
        rw [Option.map_eq_some'] at h
        obtain ⟨i', hi', rfl⟩ := h
        obtain ⟨hsp, hmin⟩ := ih hi'
        refine ⟨⟨by simpa using hsp.1, ?_⟩, ?_⟩
        · obtain ⟨e, he, hd⟩ := hsp.2
          exact ⟨e, by simpa using he, hd⟩
        · intro j hj
          cases j with
          | zero =>
            rintro ⟨h0, e, he, hd⟩
            simp only [List.get?] at h0 he
            obtain rfl := Option.some_injective _ h0
            obtain rfl := Option.some_injective _ he
            exact hc (by simp [hd])
          | succ j' =>
            intro hsp'
            refine hmin j' (by omega) ⟨by simpa using hsp'.1, ?_⟩
            obtain ⟨e, he, hd⟩ := hsp'.2
            exact ⟨e, by simpa using he, hd⟩

theorem versionSplit_none {s : Str} (h : versionSplit s = none) :
    ∀ i, ¬ splitPoint s i := by
  induction s with
  | nil =>
    intro i hsp
    cases hsp.1
  | cons c tail ih =>
    cases tail with
    | nil =>
      intro i hsp
      obtain ⟨e, he, _⟩ := hsp.2
      cases i with
      | zero => cases he
      | succ i' => cases he
    | cons d rest =>
      by_cases hc : (c = '-' && isAsciiDigit d) = true
      · rw [versionSplit, if_pos hc] at h
        cases h
      · rw [versionSplit, if_neg hc] at h
        rw [Option.map_eq_none'] at h
        intro i
        cases i with
        | zero =>
          rintro ⟨h0, e, he, hd⟩
          simp only [List.get?] at h0 he
          obtain rfl := Option.some_injective _ h0
          obtain rfl := Option.some_injective _ he
          exact hc (by simp [hd])
        | succ i' =>
          intro hsp'
          refine ih h i' ⟨by simpa using hsp'.1, ?_⟩
          obtain ⟨e, he, hd⟩ := hsp'.2
          exact ⟨e, by simpa using he, hd⟩

/-- **C7**: `Package` parsing succeeds exactly when the name contains a `-`
immediately followed by a digit; on success `pname` is everything before the
first such dash, `version` everything from the digit onward (never empty),
matching the spec's examples. -/
theorem C7_package_parse_split :
    (∀ s : Str, (Package.parse s).isSome ↔ ∃ i, splitPoint s i) ∧
    (∀ (s : Str) (p : Package), Package.parse s = some p →
      p.name = s ∧
      ∃ i, p.v_idx = i + 1 ∧ splitPoint s i ∧ (∀ j < i, ¬ splitPoint s j) ∧
        p.pname = s.take i ∧ p.version = s.drop (i + 1) ∧ p.version ≠ []) ∧
    (Package.parse "exiv2-0.27.1".data).map Package.pname = some "exiv2".data ∧
    (Package.parse "exiv2-0.27.1".data).map Package.version = some "0.27.1".data ∧
    Package.parse "exiv2".data = none ∧
    (Package.parse "linux-kernel-5.2".data).map Package.pname = some "linux-kernel".data := by
  refine ⟨?_, ?_, by decide, by decide, by decide, by decide⟩
  · intro s
    unfold Package.parse
    cases hv : versionSplit s with
    | none =>
      simp only [Option.isSome_none, Bool.false_eq_true, false_iff, not_exists]
      exact versionSplit_none hv
    | some i =>
      simp only [Option.isSome_some, true_iff]
      exact ⟨i, (versionSplit_some hv).1⟩
  · intro s p hp
    unfold Package.parse at hp
    cases hv : versionSplit s with
    | none => rw [hv] at hp; cases hp
    | some i =>
      rw [hv] at hp
      obtain rfl := Option.some_injective _ hp
      obtain ⟨hsp, hmin⟩ := versionSplit_some hv
      refine ⟨rfl, i, rfl, hsp, hmin, ?_, rfl, ?_⟩
      · simp [Package.pname]
      · obtain ⟨d, hd, _⟩ := hsp.2
        have hlen : i + 1 < s.length := by
          have := List.get?_eq_some.mp hd
          exact this.1
        intro hnil
        have : s.length ≤ i + 1 := by
          rw [Package.version] at hnil
          simpa using List.drop_eq_nil_iff.mp hnil
        omega

/-- Witness for C7 at `exiv2-0.27.1`: the parse succeeds with `v_idx = 6` and
the theorem's success conclusions hold there. -/
theorem C7_package_parse_split_witness :
    Package.parse "exiv2-0.27.1".data = some ⟨"exiv2-0.27.1".data, 6⟩ ∧
    ((⟨"exiv2-0.27.1".data, 6⟩ : Package).name = "exiv2-0.27.1".data ∧
      ∃ i, (⟨"exiv2-0.27.1".data, 6⟩ : Package).v_idx = i + 1 ∧
        splitPoint "exiv2-0.27.1".data i ∧
        (∀ j < i, ¬ splitPoint "exiv2-0.27.1".data j) ∧
        (⟨"exiv2-0.27.1".data, 6⟩ : Package).pname = "exiv2-0.27.1".data.take i ∧
        (⟨"exiv2-0.27.1".data, 6⟩ : Package).version = "exiv2-0.27.1".data.drop (i + 1) ∧
        (⟨"exiv2-0.27.1".data, 6⟩ : Package).version ≠ []) :=
  ⟨by decide,
    C7_package_parse_split.2.1 "exiv2-0.27.1".data ⟨"exiv2-0.27.1".data, 6⟩ (by decide)⟩

/-! ### C8: store-path derivation-name extraction -/

/-- **C8**: each trimmed non-blank store-listing line is interpreted by
exactly three shapes in priority order — absolute store path (`-` at offset
43, keep from 44), bare hash-name pair (`-` at offset 32, keep from 33),
otherwise the whole trimmed line — and in allow-list mode a known output
suffix is stripped afterwards, so the dump line
`/nix/store/<32charhash>-db-5.3.28-bin` indexes `db-5.3.28`. -/
theorem C8_store_path_shapes :
    (∀ l : Str, 44 < (trimAscii l).length → (trimAscii l).get? 43 = some '-' →
      from_store_path l = some ((trimAscii l).drop 44)) ∧
    (∀ l : Str, ¬(44 < (trimAscii l).length ∧ (trimAscii l).get? 43 = some '-') →
      33 < (trimAscii l).length → (trimAscii l).get? 32 = some '-' →
      from_store_path l = some ((trimAscii l).drop 33)) ∧
    (∀ l : Str, trimAscii l ≠ [] →
      ¬(44 < (trimAscii l).length ∧ (trimAscii l).get? 43 = some '-') →
      ¬(33 < (trimAscii l).length ∧ (trimAscii l).get? 32 = some '-') →
      from_store_path l = some (trimAscii l)) ∧
    (∀ l : Str, trimAscii l = [] → from_store_path l = none) ∧
    extract_derivations
        ["/nix/store/w43m4jsawvibjx5r20rx26h19hxkq5dg-db-5.3.28-bin".data] =
      ["db-5.3.28".data] ∧
    extract_derivations
        ["w43m4jsawvibjx5r20rx26h19hxkq5dg-db-5.3.28-bin".data,
         "/nix/store/1yqbpsfyqcamlr79jzsh1cpd2pkv1858-unbound-1.9.0-lib".data,
         "util-linux-2.33.1-dev".data,
         "zsh-5.7.1".data] =
      ["db-5.3.28".data, "unbound-1.9.0".data, "util-linux-2.33.1".data,
       "zsh-5.7.1".data] ∧
    stripOutput STRIP_OUTPUTS "db-5.3.28-bin".data = "db-5.3.28".data ∧
    stripOutput STRIP_OUTPUTS "foo-1.0-dev".data = "foo-1.0".data ∧
    stripOutput STRIP_OUTPUTS "foo-1.0-out".data = "foo-1.0".data ∧
    stripOutput STRIP_OUTPUTS "foo-1.0-lib".data = "foo-1.0".data := by
  refine ⟨?_, ?_, ?_, ?_, by decide, by decide, by decide, by decide, by decide, by decide⟩
  · intro l h1 h2
    have hz : ¬ (trimAscii l).length = 0 := by omega
    simp only [from_store_path]
    rw [if_neg hz, if_pos ⟨h1, h2⟩]
  · intro l hno h1 h2
    have hz : ¬ (trimAscii l).length = 0 := by omega
    simp only [from_store_path]
    rw [if_neg hz, if_neg hno, if_pos ⟨h1, h2⟩]
  · intro l hne hno44 hno33
    have hz : ¬ (trimAscii l).length = 0 := by
      intro hh
      exact hne (List.length_eq_zero.mp hh)
    simp only [from_store_path]
    rw [if_neg hz, if_neg hno44, if_neg hno33]
  · intro l hnil
    have hz : (trimAscii l).length = 0 := by rw [hnil]; rfl
    simp only [from_store_path]
    rw [if_pos hz]

/-- Witness for C8: the absolute-store-path shape applies to the example dump
line, whose trimmed form has `-` at offset 43. -/
theorem C8_store_path_shapes_witness :
    44 < (trimAscii "/nix/store/w43m4jsawvibjx5r20rx26h19hxkq5dg-db-5.3.28-bin".data).length ∧
    (trimAscii "/nix/store/w43m4jsawvibjx5r20rx26h19hxkq5dg-db-5.3.28-bin".data).get? 43 =
      some '-' ∧
    from_store_path "/nix/store/w43m4jsawvibjx5r20rx26h19hxkq5dg-db-5.3.28-bin".data =
      some ((trimAscii "/nix/store/w43m4jsawvibjx5r20rx26h19hxkq5dg-db-5.3.28-bin".data).drop 44) :=
  ⟨by decide, by decide,
    C8_store_path_shapes.1 "/nix/store/w43m4jsawvibjx5r20rx26h19hxkq5dg-db-5.3.28-bin".data
      (by decide) (by decide)⟩

/-! ### C10: the "Scanned versions" footer slices 11 characters of each rev -/

theorem optionMapM_eq_none {α β : Type} (f : α → Option β) (l : List α)
    (h : ∃ x ∈ l, f x = none) : l.mapM f = none := by
  induction l with
  | nil =>
    obtain ⟨x, hx, _⟩ := h
    cases hx
  | cons a rest ih =>
    rw [List.mapM_cons]
    obtain ⟨x, hx, hfx⟩ := h
    rcases List.mem_cons.mp hx with rfl | hx'
    · rw [hfx]
      rfl
    · cases hfa : f a with
      | none => rfl
      | some b =>
        rw [ih ⟨x, hx', hfx⟩]
        rfl

/-- **C10**: rendering a ticket's "Scanned versions" footer takes
`rev[..11]` of every branch referenced by any advisory, so whenever the
ticket references a branch whose revision is shorter than 11 characters
(e.g. a branch built by `Branch::new` from a bare name such as `br1`, whose
rev defaults to the name), rendering panics (modelled as `none`) instead of
producing text. -/
theorem C10_short_rev_footer_panics (t : Ticket)
    (h : ∃ b ∈ t.referencedBranches, b.rev.length < 11) :
    t.scannedVersions = none := by
  unfold Ticket.scannedVersions
  dsimp only
  obtain ⟨b, hb, hlen⟩ := h
  have hfb : (revSlice11 b.rev).map (fun r => b.name ++ ": ".data ++ r) = none := by
    unfold revSlice11
    rw [if_neg (by omega)]
    rfl
  have hmm : (t.affected.flatMap (fun ad => ad.2.branches)).mapM
      (fun b => (revSlice11 b.rev).map (fun r => b.name ++ ": ".data ++ r)) = none :=
    optionMapM_eq_none _ _ ⟨b, hb, hfb⟩
  rw [hmm]
  rfl

/-- A ticket whose only advisory is backed by `Branch::new("br1")` (rev =
"br1", 3 characters). -/
def exC10Ticket : Ticket :=
  { iteration := 1, pkg := exLibtiff,
    affected := [(exAdv17100, { branches := [exBr1], score := none })] }

/-- Witness for C10: the example ticket references a branch with a 3-character
revision, and its footer rendering panics. -/
theorem C10_short_rev_footer_panics_witness :
    (∃ b ∈ exC10Ticket.referencedBranches, b.rev.length < 11) ∧
    exC10Ticket.scannedVersions = none :=
  ⟨by decide, C10_short_rev_footer_panics exC10Ticket (by decide)⟩

/-! ### C6: decimal digit machinery -/

theorem char_eq_of_toNat {a b : Char} (h : a.toNat = b.toNat) : a = b :=
  Char.eq_of_val_eq (UInt32.eq_of_toBitVec_eq (BitVec.eq_of_toNat_eq h))

theorem charOfNat_toNat_digit {n : Nat} (h1 : 48 ≤ n) (h2 : n ≤ 57) :
    (Char.ofNat n).toNat = n := by
  interval_cases n <;> decide

theorem isAsciiDigit_toNat {c : Char} (h : isAsciiDigit c = true) :
    48 ≤ c.toNat ∧ c.toNat ≤ 57 := by
  unfold isAsciiDigit at h
  simp only [Bool.and_eq_true, decide_eq_true_eq] at h
  exact ⟨h.1, h.2⟩

theorem digitVal_lt {c : Char} (h : isAsciiDigit c = true) : digitVal c < 10 := by
  obtain ⟨h1, h2⟩ := isAsciiDigit_toNat h
  have h0 : '0'.toNat = 48 := rfl
  unfold digitVal
  omega

theorem digitChar_toNat {d : Nat} (h : d < 10) :
    (Char.ofNat ('0'.toNat + d)).toNat = '0'.toNat + d := by
  have h0 : '0'.toNat = 48 := rfl
  exact charOfNat_toNat_digit (by omega) (by omega)

theorem digitChar_isDigit {d : Nat} (h : d < 10) :
    isAsciiDigit (Char.ofNat ('0'.toNat + d)) = true := by
  have ht := digitChar_toNat h
  have h0 : '0'.toNat = 48 := rfl
  unfold isAsciiDigit
  simp only [Bool.and_eq_true, decide_eq_true_eq]
  constructor
  · show '0'.toNat ≤ (Char.ofNat ('0'.toNat + d)).toNat
    omega
  · show (Char.ofNat ('0'.toNat + d)).toNat ≤ '9'.toNat
    have h9 : '9'.toNat = 57 := rfl
    omega

theorem digitChar_val {d : Nat} (h : d < 10) :
    digitVal (Char.ofNat ('0'.toNat + d)) = d := by
  unfold digitVal
  rw [digitChar_toNat h]
  omega

theorem digit_char_inv {c : Char} (h : isAsciiDigit c = true) :
    Char.ofNat ('0'.toNat + digitVal c) = c := by
  obtain ⟨h1, h2⟩ := isAsciiDigit_toNat h
  have h0 : '0'.toNat = 48 := rfl
  have hval : '0'.toNat + digitVal c = c.toNat := by
    unfold digitVal
    omega
  rw [hval]
  exact char_eq_of_toNat (charOfNat_toNat_digit h1 h2)

theorem digitVal_ne_zero {c : Char} (hd : isAsciiDigit c = true) (h : c ≠ '0') :
    digitVal c ≠ 0 := by
  intro hz
  apply h
  have := digit_char_inv hd
  rw [hz] at this
  rw [← this]
  rfl

theorem digitsFuel_eq (fuel n : Nat) (h : n ≤ fuel) :
    digitsFuel fuel n = Nat.digits 10 n := by
  induction fuel generalizing n with
  | zero =>
    have : n = 0 := by omega
    subst this
    rw [Nat.digits_zero]
    rfl
  | succ fuel ih =>
    cases n with
    | zero =>
      rw [Nat.digits_zero]
      rfl
    | succ n =>
      rw [digitsFuel]
      rw [Nat.digits_def' (by norm_num : 1 < 10) (Nat.succ_pos n)]
      congr 1
      apply ih
      have : (n + 1) / 10 < n + 1 := Nat.div_lt_self (Nat.succ_pos n) (by norm_num)
      omega

theorem decimalDigits_eq (n : Nat) : decimalDigits n = Nat.digits 10 n :=
  digitsFuel_eq n n le_rfl

theorem foldrMSF_eq_ofDigits (L : List Nat) :
    L.foldr (fun d acc => 10 * acc + d) 0 = Nat.ofDigits 10 L := by
  induction L with
  | nil => simp [Nat.ofDigits]
  | cons d rest ih =>
    rw [List.foldr_cons, ih, Nat.ofDigits_cons]
    ring

theorem valMSF_eq_ofDigits_reverse (M : List Nat) :
    M.foldl (fun a d => 10 * a + d) 0 = Nat.ofDigits 10 M.reverse := by
  have h1 : M.foldl (fun a d => 10 * a + d) 0 =
      M.reverse.reverse.foldl (fun a d => 10 * a + d) 0 := by
    rw [List.reverse_reverse]
  rw [h1, List.foldl_reverse, foldrMSF_eq_ofDigits]

theorem foldl_digitVal_map (L : List Nat) (h : ∀ d ∈ L, d < 10) (a : Nat) :
    L.foldl (fun acc d => 10 * acc + digitVal (Char.ofNat ('0'.toNat + d))) a =
      L.foldl (fun acc d => 10 * acc + d) a := by
  induction L generalizing a with
  | nil => rfl
  | cons d rest ih =>
    rw [List.foldl_cons, List.foldl_cons, digitChar_val (h d (List.mem_cons_self _ _))]
    exact ih (fun x hx => h x (List.mem_cons_of_mem _ hx)) _

theorem decimalValue_map_digitChar (L : List Nat) (h : ∀ d ∈ L, d < 10) :
    decimalValue (L.map (fun d => Char.ofNat ('0'.toNat + d))) =
      L.foldl (fun a d => 10 * a + d) 0 := by
  unfold decimalValue
  rw [List.foldl_map]
  exact foldl_digitVal_map L h 0

theorem decimalChars_ne_nil (n : Nat) : decimalChars n ≠ [] := by
  unfold decimalChars
  by_cases h : n = 0
  · rw [if_pos h]
    exact List.cons_ne_nil _ _
  · rw [if_neg h]
    simp only [ne_eq, List.map_eq_nil_iff, List.reverse_eq_nil_iff]
    rw [decimalDigits_eq]
    exact Nat.digits_ne_nil_iff_ne_zero.mpr h

theorem decimalChars_all_digits (n : Nat) :
    ∀ c ∈ decimalChars n, isAsciiDigit c = true := by
  unfold decimalChars
  by_cases h : n = 0
  · rw [if_pos h]
    intro c hc
    rcases List.mem_singleton.mp hc with rfl
    decide
  · rw [if_neg h]
    intro c hc
    obtain ⟨d, hd, rfl⟩ := List.mem_map.mp hc
    have : d < 10 := by
      rw [decimalDigits_eq] at hd
      exact Nat.digits_lt_base (by norm_num) (List.mem_reverse.mp hd)
    exact digitChar_isDigit this

theorem decimalValue_decimalChars (n : Nat) : decimalValue (decimalChars n) = n := by
  unfold decimalChars
  by_cases h : n = 0
  · rw [if_pos h, h]
    decide
  · rw [if_neg h]
    rw [decimalDigits_eq]
    rw [decimalValue_map_digitChar _ (by
      intro d hd
      exact Nat.digits_lt_base (by norm_num) (List.mem_reverse.mp hd))]
    rw [valMSF_eq_ofDigits_reverse, List.reverse_reverse]
    exact Nat.ofDigits_digits 10 n

theorem foldl_replicate_zero_char (k : Nat) :
    List.foldl (fun acc c => 10 * acc + digitVal c) 0 (List.replicate k '0') = 0 := by
  induction k with
  | zero => rfl
  | succ k ih =>
    rw [List.replicate_succ, List.foldl_cons]
    have : (10 * 0 + digitVal '0') = 0 := rfl
    rw [this, ih]

theorem decimalValue_pad4 (l : Str) : decimalValue (pad4 l) = decimalValue l := by
  unfold pad4 decimalValue
  rw [List.foldl_append, foldl_replicate_zero_char]

theorem pad4_all_digits {l : Str} (h : ∀ c ∈ l, isAsciiDigit c = true) :
    ∀ c ∈ pad4 l, isAsciiDigit c = true := by
  intro c hc
  rcases List.mem_append.mp hc with h1 | h1
  · rcases List.eq_of_mem_replicate h1 with rfl
    decide
  · exact h c h1

theorem pad4_ne_nil {l : Str} (h : l ≠ []) : pad4 l ≠ [] := by
  unfold pad4
  simp only [ne_eq, List.append_eq_nil, not_and]
  intro _
  exact h

theorem decimalChars_len4 {y : Nat} (h1 : 1000 ≤ y) (h2 : y ≤ 9999) :
    (decimalChars y).length = 4 := by
  unfold decimalChars
  rw [if_neg (by omega)]
  rw [List.length_map, List.length_reverse, decimalDigits_eq]
  rw [Nat.digits_len 10 y (by norm_num) (by omega)]
  have : Nat.log 10 y = 3 :=
    Nat.log_eq_of_pow_le_of_lt_pow (by norm_num; omega) (by norm_num; omega)
  omega

theorem decimalChars_decimalValue {ys : Str} (hne : ys ≠ [])
    (hdig : ∀ c ∈ ys, isAsciiDigit c = true) (h0 : ys.head? ≠ some '0') :
    decimalChars (decimalValue ys) = ys := by
  obtain ⟨c, ytail, rfl⟩ := List.exists_cons_of_ne_nil hne
  set L : List Nat := (c :: ytail).map digitVal with hL
  have hcd : isAsciiDigit c = true := hdig c (List.mem_cons_self _ _)
  have hLb : ∀ d ∈ L.reverse, d < 10 := by
    intro d hd
    obtain ⟨x, hx, rfl⟩ := List.mem_map.mp (List.mem_reverse.mp hd)
    exact digitVal_lt (hdig x hx)
  have hval : decimalValue (c :: ytail) = Nat.ofDigits 10 L.reverse := by
    have hfm : L.foldl (fun a d => 10 * a + d) 0 = decimalValue (c :: ytail) := by
      rw [hL, List.foldl_map]
      rfl
    rw [← hfm, valMSF_eq_ofDigits_reverse]
  have hlast : ∀ (hh : L.reverse ≠ []), L.reverse.getLast hh ≠ 0 := by
    intro hh
    have hrev : L.reverse = (ytail.map digitVal).reverse ++ [digitVal c] := by
      rw [hL, List.map_cons, List.reverse_cons]
    have h2 : ((ytail.map digitVal).reverse ++ [digitVal c] : List Nat) ≠ [] := by
      simp
    have : L.reverse.getLast hh = digitVal c := by
      rw [List.getLast_congr hh h2 hrev]
      exact List.getLast_append' _ _ (List.cons_ne_nil _ _)
    rw [this]
    apply digitVal_ne_zero hcd
    intro hc0
    apply h0
    rw [hc0]
    rfl
  have hdg : Nat.digits 10 (Nat.ofDigits 10 L.reverse) = L.reverse :=
    Nat.digits_ofDigits 10 (by norm_num) L.reverse hLb hlast
  have hnz : Nat.ofDigits 10 L.reverse ≠ 0 := by
    intro hz
    have := hdg
    rw [hz, Nat.digits_zero] at this
    have : L.reverse ≠ [] := by
      rw [hL]
      simp
    rw [← hdg] at this
    rw [hz, Nat.digits_zero] at this
    exact this rfl
  rw [hval]
  unfold decimalChars
  rw [if_neg hnz, decimalDigits_eq, hdg, List.reverse_reverse]
  rw [hL, List.map_map]
  conv_rhs => rw [← List.map_id (c :: ytail)]
  apply List.map_congr_left
  intro x hx
  exact digit_char_inv (hdig x hx)

theorem decimalValue_lt_pow (ys : Str) (h : ∀ c ∈ ys, isAsciiDigit c = true) :
    decimalValue ys < 10 ^ ys.length := by
  have hfm : (ys.map digitVal).foldl (fun a d => 10 * a + d) 0 = decimalValue ys := by
    rw [List.foldl_map]
    rfl
  rw [← hfm, valMSF_eq_ofDigits_reverse]
  have hb : ∀ d ∈ (ys.map digitVal).reverse, d < 10 := by
    intro d hd
    obtain ⟨x, hx, rfl⟩ := List.mem_map.mp (List.mem_reverse.mp hd)
    exact digitVal_lt (h x hx)
  have := Nat.ofDigits_lt_base_pow_length (by norm_num : (1:ℕ) < 10) hb
  simpa using this

theorem list_four_of_length {l : Str} (h : l.length = 4) :
    ∃ c1 c2 c3 c4, l = [c1, c2, c3, c4] := by
  rcases l with _ | ⟨c1, _ | ⟨c2, _ | ⟨c3, _ | ⟨c4, rest⟩⟩⟩⟩ <;>
    simp only [List.length_cons, List.length_nil] at h
  · omega
  · omega
  · omega
  · omega
  · have : rest = [] := List.length_eq_zero.mp (by omega)
    exact ⟨c1, c2, c3, c4, by rw [this]⟩

theorem advisory_parse_cveStr {c1 c2 c3 c4 : Char} {ds : Str}
    (h1 : isAsciiDigit c1 = true) (h2 : isAsciiDigit c2 = true)
    (h3 : isAsciiDigit c3 = true) (h4 : isAsciiDigit c4 = true)
    (hdne : ds ≠ []) (hdd : ∀ c ∈ ds, isAsciiDigit c = true)
    (hy16 : decimalValue [c1, c2, c3, c4] < 2 ^ 16)
    (hd64 : decimalValue ds < 2 ^ 64) :
    Advisory.parse ('C' :: 'V' :: 'E' :: '-' :: c1 :: c2 :: c3 :: c4 :: '-' :: ds) =
      some ⟨decimalValue [c1, c2, c3, c4], decimalValue ds⟩ := by
  have hA : (isAsciiDigit c1 && isAsciiDigit c2 && isAsciiDigit c3 && isAsciiDigit c4
      && !ds.isEmpty && ds.all isAsciiDigit) = true := by
    simp only [h1, h2, h3, h4, Bool.and_eq_true, Bool.not_eq_true',
      List.all_eq_true, and_true, true_and]
    constructor
    · rw [List.isEmpty_eq_false]
      exact hdne
    · exact hdd
  have hB : (decide (decimalValue [c1, c2, c3, c4] < 2 ^ 16)
      && decide (decimalValue ds < 2 ^ 64)) = true := by
    simp only [Bool.and_eq_true, decide_eq_true_eq]
    norm_num
    exact ⟨hy16, hd64⟩
  simp only [Advisory.parse, hA, if_true, hB]

theorem advisory_render_parse {y i : Nat} (h1 : 1000 ≤ y) (h2 : y ≤ 9999)
    (h3 : i < 2 ^ 64) :
    Advisory.parse (Advisory.render ⟨y, i⟩) = some ⟨y, i⟩ := by
  obtain ⟨c1, c2, c3, c4, hys⟩ := list_four_of_length (decimalChars_len4 h1 h2)
  have hdig : ∀ c ∈ ([c1, c2, c3, c4] : Str), isAsciiDigit c = true := by
    rw [← hys]
    exact decimalChars_all_digits y
  have hvy : decimalValue [c1, c2, c3, c4] = y := by
    rw [← hys]
    exact decimalValue_decimalChars y
  have hren : Advisory.render ⟨y, i⟩ =
      'C' :: 'V' :: 'E' :: '-' :: c1 :: c2 :: c3 :: c4 :: '-' :: pad4 (decimalChars i) := by
    unfold Advisory.render
    rw [hys]
    rfl
  rw [hren]
  rw [advisory_parse_cveStr (hdig c1 (by simp)) (hdig c2 (by simp)) (hdig c3 (by simp))
    (hdig c4 (by simp)) (pad4_ne_nil (decimalChars_ne_nil i))
    (pad4_all_digits (decimalChars_all_digits i)) (by rw [hvy]; omega)
    (by rw [decimalValue_pad4, decimalValue_decimalChars]; exact h3)]
  rw [hvy, decimalValue_pad4, decimalValue_decimalChars]

/-- Counterexample to **C6** as stated: `Advisory::new(7, 544)` renders as
`CVE-7-0544` (the year is not padded), which the `^CVE-(\d{4})-(\d+)$` parser
rejects, so `parse(to_string(x)) == x` fails for years outside 1000..9999. -/
theorem C6_counterexample :
    Advisory.parse (Advisory.render ⟨7, 544⟩) = none ∧
    Advisory.parse (Advisory.render ⟨7, 544⟩) ≠ some ⟨7, 544⟩ := by
  decide

/-- **C6** (amended): the round trip `parse (render x) = x` holds for every
advisory whose year has exactly four digits (1000..9999) and whose id fits a
`u64`; and for every string matching the CVE grammar whose year part has no
leading zero and whose id value fits a `u64`, parsing succeeds with the
numeric values and re-rendering reproduces the string with the year verbatim
and the numeric id zero-padded to width 4 (wider ids in full). -/
theorem C6_advisory_round_trip :
    (∀ y i : Nat, 1000 ≤ y → y ≤ 9999 → i < 2 ^ 64 →
      Advisory.parse (Advisory.render ⟨y, i⟩) = some ⟨y, i⟩) ∧
    (∀ ys ds : Str, ys.length = 4 → (∀ c ∈ ys, isAsciiDigit c = true) →
      ys.head? ≠ some '0' → ds ≠ [] → (∀ c ∈ ds, isAsciiDigit c = true) →
      decimalValue ds < 2 ^ 64 →
      Advisory.parse ('C' :: 'V' :: 'E' :: '-' :: (ys ++ '-' :: ds)) =
        some ⟨decimalValue ys, decimalValue ds⟩ ∧
      Advisory.render ⟨decimalValue ys, decimalValue ds⟩ =
        'C' :: 'V' :: 'E' :: '-' :: (ys ++ '-' :: pad4 (decimalChars (decimalValue ds)))) := by
  refine ⟨fun y i h1 h2 h3 => advisory_render_parse h1 h2 h3, ?_⟩
  intro ys ds hy4 hyd hy0 hdne hdd hlt
  obtain ⟨c1, c2, c3, c4, rfl⟩ := list_four_of_length hy4
  have hy16 : decimalValue [c1, c2, c3, c4] < 2 ^ 16 := by
    have := decimalValue_lt_pow [c1, c2, c3, c4] hyd
    simp only [List.length_cons, List.length_nil] at this
    omega
  constructor
  · exact advisory_parse_cveStr (hyd c1 (by simp)) (hyd c2 (by simp))
      (hyd c3 (by simp)) (hyd c4 (by simp)) hdne hdd hy16 hlt
  · unfold Advisory.render
    rw [decimalChars_decimalValue (by simp) hyd hy0]
    rfl

/-- Witness for the amended C6: round trip at `CVE-2019-0544`, and grammar
canonicalization at year `2019` with id digits `00023` (leading zeros). -/
theorem C6_advisory_round_trip_witness :
    Advisory.parse (Advisory.render ⟨2019, 544⟩) = some ⟨2019, 544⟩ ∧
    (Advisory.parse ('C' :: 'V' :: 'E' :: '-' :: ("2019".data ++ '-' :: "00023".data)) =
        some ⟨decimalValue "2019".data, decimalValue "00023".data⟩ ∧
      Advisory.render ⟨decimalValue "2019".data, decimalValue "00023".data⟩ =
        'C' :: 'V' :: 'E' :: '-' :: ("2019".data ++ '-' ::
          pad4 (decimalChars (decimalValue "00023".data)))) :=
  ⟨C6_advisory_round_trip.1 2019 544 (by norm_num) (by norm_num) (by norm_num),
   C6_advisory_round_trip.2 "2019".data "00023".data (by decide) (by decide)
     (by decide) (by decide) (by decide) (by decide)⟩

/-! ### C9: fold-order independence of consolidation -/

/-- The ticket `ticket_list` builds for package `p`, expressed through the
order-insensitive views of the input. -/
def canonicalTicket (it : Nat) (ping : Bool) (l : List (Branch × VulnixRes))
    (p : Package) : Ticket :=
  buildTicket it (step1Fold ping l) (p, pairsFor l p)

theorem pkgmap_entry_eq (ping : Bool) (l : List (Branch × VulnixRes))
    {pv : Package × List (Advisory × Branch)}
    (h : pv ∈ (step1Fold ping l).pkgmap) : pv.2 = pairsFor l pv.1 := by
  have hkey : pv.1 ∈ (step1Fold ping l).pkgmap.map Prod.fst :=
    List.mem_map_of_mem Prod.fst h
  have hkey' : pv.1 ∈ resPkgs l := by
    unfold step1Fold at hkey
    rcases (step1_pkgmap_keys_mem _ _ _ _).mp hkey with h' | h'
    · simp at h'
    · exact h'
  have hlk : alistLookup pv.1 (step1Fold ping l).pkgmap = some pv.2 :=
    alistLookup_of_mem (consolidate_pkgmap_nodup ping l) h
  rw [consolidate_pkgmap_lookup, if_pos hkey'] at hlk
  exact (Option.some_injective _ hlk).symm

theorem consolidatePairs_eq_map (it : Nat) (ping : Bool)
    (l : List (Branch × VulnixRes)) :
    consolidatePairs it l ping =
      List.insertionSort ticketLe
        (((step1Fold ping l).pkgmap.map Prod.fst).map (canonicalTicket it ping l)) := by
  unfold consolidatePairs step2
  congr 1
  rw [List.map_map]
  apply List.map_congr_left
  intro pv hpv
  have hv := pkgmap_entry_eq ping l hpv
  unfold canonicalTicket
  show buildTicket it (step1Fold ping l) pv =
    buildTicket it (step1Fold ping l) (pv.1, pairsFor l pv.1)
  congr 1
  exact Prod.ext rfl hv

theorem resPkgs_perm {l₁ l₂ : List (Branch × VulnixRes)} (h : List.Perm l₁ l₂) :
    List.Perm (resPkgs l₁) (resPkgs l₂) := h.map _

theorem pairsFor_perm {l₁ l₂ : List (Branch × VulnixRes)} (h : List.Perm l₁ l₂)
    (p : Package) : List.Perm (pairsFor l₁ p) (pairsFor l₂ p) :=
  h.flatMap_right _

theorem maintFor_perm {l₁ l₂ : List (Branch × VulnixRes)} (h : List.Perm l₁ l₂)
    (p : Package) : List.Perm (maintFor l₁ p) (maintFor l₂ p) :=
  h.flatMap_right _

theorem scoreBindings_perm {l₁ l₂ : List (Branch × VulnixRes)} (h : List.Perm l₁ l₂) :
    List.Perm (scoreBindings l₁) (scoreBindings l₂) :=
  h.flatMap_right _

theorem scoresConsistent_perm {l₁ l₂ : List (Branch × VulnixRes)}
    (h : List.Perm l₁ l₂) (hc : scoresConsistent l₁) : scoresConsistent l₂ := by
  intro kv hkv kv' hkv'
  exact hc kv ((scoreBindings_perm h).mem_iff.mpr hkv)
    kv' ((scoreBindings_perm h).mem_iff.mpr hkv')

theorem step1Fold_scores_perm {l₁ l₂ : List (Branch × VulnixRes)} (ping : Bool)
    (h : List.Perm l₁ l₂) (hc : scoresConsistent l₁) :
    (step1Fold ping l₁).scores = (step1Fold ping l₂).scores := by
  funext a
  by_cases hq : ∃ q, (a, q) ∈ scoreBindings l₁
  · obtain ⟨q, hq⟩ := hq
    rw [step1Fold_scores_of_mem ping hc hq,
      step1Fold_scores_of_mem ping (scoresConsistent_perm h hc)
        ((scoreBindings_perm h).mem_iff.mp hq)]
  · push_neg at hq
    rw [step1Fold_scores_of_not_mem ping hq,
      step1Fold_scores_of_not_mem ping (fun q hmem =>
        hq q ((scoreBindings_perm h).mem_iff.mpr hmem))]

theorem step1Fold_maintmap_lookup_true (l : List (Branch × VulnixRes)) (p : Package) :
    alistLookup p (step1Fold true l).maintmap =
      if p ∈ resPkgs l then some (maintFor l p) else none := by
  unfold step1Fold
  rw [step1_maintmap_lookup_true]
  rfl

theorem step1Fold_maintmap_false (l : List (Branch × VulnixRes)) :
    (step1Fold false l).maintmap = [] :=
  step1_maintmap_false l _

theorem canonicalTicket_congr (it : Nat) (ping : Bool)
    {l₁ l₂ : List (Branch × VulnixRes)} (h : List.Perm l₁ l₂)
    (hc : scoresConsistent l₁) :
    canonicalTicket it ping l₁ = canonicalTicket it ping l₂ := by
  funext p
  unfold canonicalTicket buildTicket
  have hsortpairs : List.insertionSort pairLe (pairsFor l₁ p) =
      List.insertionSort pairLe (pairsFor l₂ p) := by
    apply List.eq_of_perm_of_sorted (r := pairLe)
    · exact ((List.perm_insertionSort pairLe _).trans (pairsFor_perm h p)).trans
        (List.perm_insertionSort pairLe _).symm
    · exact List.sorted_insertionSort pairLe _
    · exact List.sorted_insertionSort pairLe _
  have hscores : (step1Fold ping l₁).scores = (step1Fold ping l₂).scores :=
    step1Fold_scores_perm ping h hc
  have hmaint : (match alistLookup p (step1Fold ping l₁).maintmap with
      | some ms => dedupAdj (List.insertionSort (· ≤ ·) ms)
      | none => []) =
      (match alistLookup p (step1Fold ping l₂).maintmap with
      | some ms => dedupAdj (List.insertionSort (· ≤ ·) ms)
      | none => []) := by
    cases ping with
    | false =>
      rw [step1Fold_maintmap_false, step1Fold_maintmap_false]
    | true =>
      rw [step1Fold_maintmap_lookup_true, step1Fold_maintmap_lookup_true]
      by_cases hp : p ∈ resPkgs l₁
      · rw [if_pos hp, if_pos ((resPkgs_perm h).mem_iff.mp hp)]
        have : List.insertionSort (· ≤ ·) (maintFor l₁ p) =
            List.insertionSort (· ≤ ·) (maintFor l₂ p) := by
          apply List.eq_of_perm_of_sorted (r := (· ≤ · : Maintainer → Maintainer → Prop))
          · exact ((List.perm_insertionSort _ _).trans (maintFor_perm h p)).trans
              (List.perm_insertionSort _ _).symm
          · exact List.sorted_insertionSort _ _
          · exact List.sorted_insertionSort _ _
        simp only [this]
      · rw [if_neg hp, if_neg (fun hp2 => hp ((resPkgs_perm h).mem_iff.mpr hp2))]
  simp only [hsortpairs, hscores, hmaint]

theorem insertionSort_ticket_strict_sorted (A : List Ticket)
    (hnd : (A.map Ticket.pkg).Nodup) :
    List.Pairwise ticketLt (List.insertionSort ticketLe A) := by
  have hs : List.Pairwise ticketLe (List.insertionSort ticketLe A) :=
    List.sorted_insertionSort ticketLe A
  have hnd' : ((List.insertionSort ticketLe A).map Ticket.pkg).Nodup :=
    (((List.perm_insertionSort ticketLe A).map Ticket.pkg).nodup_iff).mpr hnd
  have hne : List.Pairwise (fun t u : Ticket => t.pkg ≠ u.pkg)
      (List.insertionSort ticketLe A) := (List.pairwise_map).mp hnd'
  refine pairwise_imp_mem ?_ (hs.and hne)
  rintro x _ y _ ⟨hle, hxy⟩
  exact lt_of_le_of_ne hle hxy

theorem canonical_map_pkg (it : Nat) (ping : Bool) (l : List (Branch × VulnixRes))
    (K : List Package) :
    (K.map (canonicalTicket it ping l)).map Ticket.pkg = K := by
  rw [List.map_map]
  conv_rhs => rw [← List.map_id K]
  exact List.map_congr_left (fun p _ => rfl)

/-- **C9**: consolidation is fold-order independent — two enumerations of the
`(branch, scan result)` pairs of step 1 that are permutations of each other
produce the same ticket list, provided each advisory is assigned a single
consistent score across all scan results (the final sort by package is the
only ordering made deterministic explicitly). -/
theorem C9_consolidation_fold_order_independent (it : Nat) (ping : Bool)
    (l₁ l₂ : List (Branch × VulnixRes)) (h : List.Perm l₁ l₂)
    (hc : scoresConsistent l₁) :
    consolidatePairs it l₁ ping = consolidatePairs it l₂ ping := by
  rw [consolidatePairs_eq_map, consolidatePairs_eq_map]
  set K₁ := (step1Fold ping l₁).pkgmap.map Prod.fst with hK₁
  set K₂ := (step1Fold ping l₂).pkgmap.map Prod.fst with hK₂
  have hknd₁ : K₁.Nodup := consolidate_pkgmap_nodup ping l₁
  have hknd₂ : K₂.Nodup := consolidate_pkgmap_nodup ping l₂
  have hkmem : ∀ q, q ∈ K₁ ↔ q ∈ K₂ := by
    intro q
    rw [hK₁, hK₂]
    unfold step1Fold
    rw [step1_pkgmap_keys_mem, step1_pkgmap_keys_mem]
    simp only [List.map_nil, List.not_mem_nil, false_or]
    exact (resPkgs_perm h).mem_iff
  have hkperm : List.Perm K₁ K₂ :=
    (List.perm_ext_iff_of_nodup hknd₁ hknd₂).mpr hkmem
  have hT : canonicalTicket it ping l₁ = canonicalTicket it ping l₂ :=
    canonicalTicket_congr it ping h hc
  have hpermA : List.Perm (K₁.map (canonicalTicket it ping l₁))
      (K₂.map (canonicalTicket it ping l₂)) := by
    rw [hT]
    exact hkperm.map _
  apply List.eq_of_perm_of_sorted (r := ticketLt)
  · exact ((List.perm_insertionSort ticketLe _).trans hpermA).trans
      (List.perm_insertionSort ticketLe _).symm
  · exact insertionSort_ticket_strict_sorted _
      (by rw [canonical_map_pkg]; exact hknd₁)
  · exact insertionSort_ticket_strict_sorted _
      (by rw [canonical_map_pkg]; exact hknd₂)

/-- The two enumeration orders of the example's `(branch, result)` pairs. -/
def exPairsA : List (Branch × VulnixRes) := flattenScan exScan

/-- The reversed enumeration of the same pairs. -/
def exPairsB : List (Branch × VulnixRes) := (flattenScan exScan).reverse

/-- Witness for C9: the two enumeration orders of the libtiff example are
permutations with consistent scores, and consolidation agrees on them. -/
theorem C9_consolidation_fold_order_independent_witness :
    List.Perm exPairsA exPairsB ∧ scoresConsistent exPairsA ∧
    consolidatePairs 2 exPairsA false = consolidatePairs 2 exPairsB false :=
  ⟨by decide, by decide,
    C9_consolidation_fold_order_independent 2 false exPairsA exPairsB
      (by decide) (by decide)⟩
